import Mathlib

/-!
Shallow embedding of `core/blockchain.go` (the canonical chain manager of an
Ethereum-classic geth fork).  Blocks, headers, receipts and the chain database
are modelled as plain inductive data; the key-value store is a record of
association lists (lookup takes the most recent binding, deletion filters).
Hashes are modelled as opaque `Nat` content addresses carried in the header;
well-formedness hypotheses relate a stored object to the key it sits under
where a theorem needs it.  `big.Int` quantities (difficulty, gas) are `Int`;
`uint64` block numbers are `Nat`.  External collaborators (state database,
validator, processor, PoW, RNG, clock) enter as explicit parameters in `Env`,
matching the spec's "interfaces only" scoping.  All recursion that walks the
database is fuelled, since the Go code's loops terminate only on well-formed
databases.
-/

namespace GethCore

/-- 32-byte hash modelled as an opaque natural-number content address. -/
abbrev Hash := Nat

/-- The zero value `common.Hash{}`, used by the Go code as "absent". -/
def zeroHash : Hash := 0

/-- Block header (`types.Header`): the fields `core/blockchain.go` consults.
`hash` models the derived keccak hash of the header, carried as a field. -/
structure Header where
  hash : Hash
  parentHash : Hash
  number : Nat
  difficulty : Int
  time : Int
  stateRoot : Hash
deriving DecidableEq, Repr

/-- Transaction: hash, nonce, optional recipient (`nil` = contract creation)
and the sender recovered from the signature (`types.Sender`). -/
structure Transaction where
  hash : Hash
  nonce : Nat
  toAddr : Option Nat
  sender : Nat
deriving DecidableEq, Repr

/-- Log entry with the derived indexing fields set at import time; `payload`
stands for the consensus part (address, topics, data). -/
structure Log where
  payload : Nat
  blockNumber : Nat
  blockHash : Hash
  txHash : Hash
  txIndex : Nat
  index : Nat
deriving DecidableEq, Repr

/-- Receipt with its consensus field `cumulativeGasUsed` and the derived
fields filled in by `InsertReceiptChain`. -/
structure Receipt where
  cumulativeGasUsed : Int
  gasUsed : Int
  txHash : Hash
  contractAddress : Nat
  logs : List Log
deriving DecidableEq, Repr

/-- Block body (`types.Body`): the transaction list (uncles are never
inspected by the code under verification). -/
structure Body where
  transactions : List Transaction
deriving DecidableEq, Repr

/-- Block = header + body; its hash is derived from the header only. -/
structure Block where
  header : Header
  body : Body
deriving DecidableEq, Repr

def Block.hash (b : Block) : Hash := b.header.hash

def Block.number (b : Block) : Nat := b.header.number

def Block.parentHash (b : Block) : Hash := b.header.parentHash

def Block.difficulty (b : Block) : Int := b.header.difficulty

def Block.root (b : Block) : Hash := b.header.stateRoot

def Block.transactions (b : Block) : List Transaction := b.body.transactions

/-- Association-list lookup: first binding wins (models overwriting puts). -/
def alookup {β : Type} : List (Nat × β) → Nat → Option β
  | [], _ => none
  | (k, v) :: t, k' => if k = k' then some v else alookup t k'

/-- The chain database (`ethdb.Database` as used by `database_util.go`):
typed tables keyed by hash or number, the three head pointers, and the set
of state roots resolvable in the (external) state database. -/
structure DB where
  headers : List (Hash × Header)
  bodies : List (Hash × Body)
  blockReceipts : List (Hash × List Receipt)
  receiptLookup : List (Hash × Receipt)
  txLookup : List (Hash × Hash × Nat × Nat)
  tds : List (Hash × Int)
  canonical : List (Nat × Hash)
  mipmap : List Nat
  headBlock : Option Hash
  headHeader : Option Hash
  headFast : Option Hash
  stateRoots : List Hash
deriving DecidableEq, Repr

/-- `GetHeader`. -/
def getHeader (db : DB) (h : Hash) : Option Header := alookup db.headers h

/-- `GetBody`. -/
def getBody (db : DB) (h : Hash) : Option Body := alookup db.bodies h

/-- `GetBlock`: a block is present when both its header and body are. -/
def getBlock (db : DB) (h : Hash) : Option Block := do
  let hd ← getHeader db h
  let bd ← getBody db h
  pure ⟨hd, bd⟩

/-- `GetCanonicalHash`. -/
def getCanonicalHash (db : DB) (n : Nat) : Option Hash := alookup db.canonical n

/-- `GetBlockByNumber`: canonical hash at the height, then the block. -/
def getBlockByNumber (db : DB) (n : Nat) : Option Block :=
  (getCanonicalHash db n).bind (getBlock db)

/-- `GetTd`. -/
def getTd (db : DB) (h : Hash) : Option Int := alookup db.tds h

/-- `GetBlockReceipts`. -/
def getBlockReceipts (db : DB) (h : Hash) : List Receipt :=
  (alookup db.blockReceipts h).getD []

/-- `HasHeader`. -/
def hasHeader (db : DB) (h : Hash) : Bool := (getHeader db h).isSome

/-- `HasBlock` (via `GetBlock`). -/
def hasBlock (db : DB) (h : Hash) : Bool := (getBlock db h).isSome

/-- `WriteHeader`. -/
def writeHeader (db : DB) (hd : Header) : DB :=
  { db with headers := (hd.hash, hd) :: db.headers }

/-- `WriteBody`. -/
def writeBody (db : DB) (h : Hash) (bd : Body) : DB :=
  { db with bodies := (h, bd) :: db.bodies }

/-- `WriteBlock` of `database_util.go`: persists header and body. -/
def dbWriteBlock (db : DB) (b : Block) : DB :=
  writeBody (writeHeader db b.header) b.hash b.body

/-- `WriteTd`. -/
def writeTd (db : DB) (h : Hash) (td : Int) : DB :=
  { db with tds := (h, td) :: db.tds }

/-- `WriteCanonicalHash`. -/
def writeCanonicalHash (db : DB) (h : Hash) (n : Nat) : DB :=
  { db with canonical := (n, h) :: db.canonical }

/-- `WriteBlockReceipts`: receipts of a block, keyed by block hash. -/
def writeBlockReceipts (db : DB) (h : Hash) (rs : List Receipt) : DB :=
  { db with blockReceipts := (h, rs) :: db.blockReceipts }

/-- `WriteReceipts`: per-transaction receipt lookup entries. -/
def writeReceipts (db : DB) (rs : List Receipt) : DB :=
  { db with receiptLookup := rs.map (fun r => (r.txHash, r)) ++ db.receiptLookup }

/-- `WriteTransactions`: per-transaction lookup index
`txHash -> (blockHash, blockNumber, txIndex)`. -/
def writeTransactions (db : DB) (b : Block) : DB :=
  { db with txLookup :=
      (b.transactions.enum.map
        (fun p => (p.2.hash, b.hash, b.number, p.1))) ++ db.txLookup }

/-- Modelled from the spec: `WriteMipmapBloom` maintains a mip-mapped
logs-bloom index (`database_util.go` is not under `src/`); the model records
that the bucket covering this block number was updated. -/
def writeMipmapBloom (db : DB) (n : Nat) (_rs : List Receipt) : DB :=
  { db with mipmap := n :: db.mipmap }

/-- `DeleteReceipt` (per-transaction receipt entry, keyed by tx hash). -/
def deleteReceipt (db : DB) (txh : Hash) : DB :=
  { db with receiptLookup := db.receiptLookup.filter (fun p => p.1 ≠ txh) }

/-- `DeleteTransaction`. -/
def deleteTransaction (db : DB) (txh : Hash) : DB :=
  { db with txLookup := db.txLookup.filter (fun p => p.1 ≠ txh) }

/-- `WriteHeadBlockHash`. -/
def writeHeadBlockHash (db : DB) (h : Hash) : DB := { db with headBlock := some h }

/-- `WriteHeadHeaderHash`. -/
def writeHeadHeaderHash (db : DB) (h : Hash) : DB := { db with headHeader := some h }

/-- `WriteHeadFastBlockHash`. -/
def writeHeadFastBlockHash (db : DB) (h : Hash) : DB := { db with headFast := some h }

/-- In-memory state of a `BlockChain` value: the database handle, the mutable
head pointers (`currentBlock`/`currentFastBlock` are `nil`-able before
`loadLastState` has run), the header chain's current header, the genesis
block, the future-blocks LRU (most recent first) and the interrupt flag. -/
structure ChainState where
  db : DB
  currentBlock : Option Block
  currentFastBlock : Option Block
  currentHeader : Header
  genesisBlock : Block
  futureBlocks : List (Hash × Block)
  procInterrupt : Bool
deriving DecidableEq, Repr

/-- `maxTimeFutureBlocks` (seconds a future block may run ahead). -/
def maxTimeFutureBlocks : Int := 30

/-- `maxFutureBlocks`: capacity of the future-blocks LRU. -/
def maxFutureBlocks : Nat := 256

/-- `lru.Cache.Add`: insert/refresh a key at the front, evicting beyond the
capacity. -/
def lruAdd (k : Hash) (b : Block) (l : List (Hash × Block)) : List (Hash × Block) :=
  ((k, b) :: l.filter (fun p => p.1 ≠ k)).take maxFutureBlocks

/-- `lru.Cache.Contains`. -/
def lruContains (l : List (Hash × Block)) (k : Hash) : Bool :=
  l.any (fun p => p.1 = k)

/-- `lru.Cache.Remove`. -/
def lruRemove (l : List (Hash × Block)) (k : Hash) : List (Hash × Block) :=
  l.filter (fun p => p.1 ≠ k)

/-- Classification of `ValidateBlock` failures as `InsertChain` tests them:
`IsKnownBlockErr`, `BlockFutureErr`, `IsParentErr`, anything else. -/
inductive VErr where
  | known
  | future
  | parent
  | other
deriving DecidableEq, Repr

/-- External collaborators of the chain manager, per the spec's scope
(validator/processor capability interface, PoW, clock, RNG seed stream).
`coin i` models `mrand.Float64() < 0.5` drawn while writing block `i`. -/
structure Env where
  now : Int
  coin : Nat → Bool
  powValid : Block → Bool
  headerCheckOK : Header → Bool
  validateBlock : ChainState → Block → Option VErr
  validateHeader : Header → Header → Bool
  processBlock : ChainState → Block → Option (List Receipt × Int)
  validateState : ChainState → Block → List Receipt → Int → Bool
  commitOK : ChainState → Block → Bool
  reorgFuel : Nat

/-- `WriteStatus` of `core/blockchain.go`. -/
inductive WriteStatus where
  | NonStatTy
  | CanonStatTy
  | SplitStatTy
  | SideStatTy
deriving DecidableEq, Repr

/-- `insert`: make `b` the canonical block at its height and the head block;
when the canonical hash at that height was different (side/unknown chain),
also force the head header and head fast block onto it.  `SetCurrentHeader`
persists the head-header pointer (modelled from the spec's header chain,
`header_chain.go` is not under `src/`). -/
def insert (st : ChainState) (b : Block) : ChainState :=
  let updateHeads := getCanonicalHash st.db b.number ≠ some b.hash
  let db := writeHeadBlockHash (writeCanonicalHash st.db b.hash b.number) b.hash
  let st := { st with db := db, currentBlock := some b }
  if updateHeads then
    { st with
      currentHeader := b.header
      currentFastBlock := some b
      db := writeHeadFastBlockHash (writeHeadHeaderHash st.db b.hash) b.hash }
  else st

/-- The walk `for ; blk != nil && blk.NumberU64() != target; blk = GetBlock(parent)`
of `reorg`: returns the block reached at the target height together with the
blocks visited before it, in visit order (highest first).  `none` models both
a broken parent link (`Invalid ... chain` error) and, at fuel exhaustion, a
walk that would not terminate. -/
def walkBack (db : DB) : Nat → Nat → Block → Option (Block × List Block)
  | 0, _, _ => none
  | fuel + 1, target, b =>
    if b.number = target then some (b, [])
    else
      match getBlock db b.parentHash with
      | none => none
      | some p => (walkBack db fuel target p).map (fun q => (q.1, b :: q.2))

/-- The lockstep walk of `reorg`: step both branches to their parents until
the hashes agree; returns the common ancestor and the two branch segments in
visit order. -/
def lockstep (db : DB) : Nat → Block → Block → Option (Block × List Block × List Block)
  | 0, _, _ => none
  | fuel + 1, ob, nb =>
    if ob.hash = nb.hash then some (ob, [], [])
    else
      match getBlock db ob.parentHash, getBlock db nb.parentHash with
      | some ob', some nb' =>
        (lockstep db fuel ob' nb').map (fun q => (q.1, ob :: q.2.1, nb :: q.2.2))
      | _, _ => none

/-- The two walk phases of `reorg` combined: common ancestor, displaced old
branch and adopted new branch (both ordered highest first, the order the code
visits and later inserts them in). -/
def reorgChains (db : DB) (fuel : Nat) (oldBlock newBlock : Block) :
    Option (Block × List Block × List Block) := do
  let (ob, nb, oldPre, newPre) ←
    if newBlock.number < oldBlock.number then
      (walkBack db fuel newBlock.number oldBlock).map
        (fun q => (q.1, newBlock, q.2, ([] : List Block)))
    else
      (walkBack db fuel oldBlock.number newBlock).map
        (fun q => (oldBlock, q.1, ([] : List Block), q.2))
  let (c, oldMid, newMid) ← lockstep db fuel ob nb
  pure (c, oldPre ++ oldMid, newPre ++ newMid)

/-- The insertion pass of `reorg` over one new-branch block: `insert`, write
the per-transaction lookup index, the individual receipts and the bloom
mip-map. -/
def reorgInsertOne (st : ChainState) (b : Block) : ChainState :=
  let st := insert st b
  let db := writeTransactions st.db b
  let receipts := getBlockReceipts db b.hash
  let db := writeReceipts db receipts
  let db := writeMipmapBloom db b.number receipts
  { st with db := db }

/-- One deletion step of the reorg cleanup phase. -/
def delTx (db : DB) (t : Transaction) : DB :=
  deleteTransaction (deleteReceipt db t.hash) t.hash

/-- `reorg(oldBlock, newBlock)`: walk both branches to the common ancestor,
insert every new-branch block (in the visit order of `newChain`, highest
first), then delete receipt and transaction lookup entries for transactions
that were only on the displaced branch (`types.TxDifference`).  Event posting
is asynchronous and outside the store model. -/
def reorg (st : ChainState) (fuel : Nat) (oldBlock newBlock : Block) :
    Option ChainState := do
  let (_c, oldChain, newChain) ← reorgChains st.db fuel oldBlock newBlock
  let deletedTxs := oldChain.flatMap Block.transactions
  let st := newChain.foldl reorgInsertOne st
  let addedTxs := newChain.flatMap Block.transactions
  let diff := deletedTxs.filter
    (fun t => ¬ addedTxs.any (fun t' => t'.hash = t.hash))
  let db := diff.foldl delTx st.db
  pure { st with db := db }

/-- Failure modes of `WriteBlock`: unknown parent TD (`ParentError`), a
failed `reorg`, and `nilHead`, standing for the nil dereference the Go code
would hit with a nil current block or a missing head TD. -/
inductive WErr where
  | parentMissing (h : Hash)
  | reorgFailed
  | nilHead
deriving DecidableEq, Repr

/-- `WriteBlock`: compute `externTd = ptd + difficulty`, adopt the block as
canonical head when `externTd > localTd`, or on a tie when the random draw
(`coin`) is below one half — reorganising first if its parent is not the
current head — otherwise mark it a side branch; in either case persist the
TD and the block and drop it from the future-blocks cache. -/
def WriteBlock (st : ChainState) (fuel : Nat) (coin : Bool) (b : Block) :
    Except WErr (WriteStatus × ChainState) := do
  let some ptd := getTd st.db b.parentHash
    | .error (.parentMissing b.parentHash)
  let some cb := st.currentBlock
    | .error .nilHead
  let some localTd := getTd st.db cb.hash
    | .error .nilHead
  let externTd := b.difficulty + ptd
  let adopt : Bool := localTd < externTd ∨ (externTd = localTd ∧ coin)
  let (status, st) ←
    if adopt then do
      let st ←
        if b.parentHash ≠ cb.hash then
          match reorg st fuel cb b with
          | none => .error .reorgFailed
          | some st' => pure st'
        else pure st
      pure (WriteStatus.CanonStatTy, insert st b)
    else
      pure (WriteStatus.SideStatTy, st)
  let db := dbWriteBlock (writeTd st.db b.hash externTd) b
  pure (status, { st with db := db, futureBlocks := lruRemove st.futureBlocks b.hash })

/-- Errors surfaced by `InsertChain`, tagged with their semantic kind.
`fatal` stands for a nil dereference the Go code would panic on. -/
inductive InsErr where
  | nonContiguous (i : Nat)
  | badNonce (i : Nat)
  | headerCheckFailed
  | futureTooFar
  | validation (e : VErr)
  | processFailed
  | stateInvalid
  | commitFailed
  | writeFailed (e : WErr)
  | fatal
deriving DecidableEq, Repr

/-- Import statistics of `InsertChain` (`stats` in the Go code). -/
structure Stats where
  queued : Nat
  processed : Nat
  ignored : Nat
deriving DecidableEq, Repr

def Stats.zero : Stats := ⟨0, 0, 0⟩

/-- Events queued during insertion and posted after the batch. -/
inductive ChainEvt where
  | chainEvent (h : Hash)
  | chainSideEvent (h : Hash)
  | chainSplitEvent (h : Hash)
deriving DecidableEq, Repr

/-- Result of `InsertChain`: the `(chainIndex, err)` return value, the state
after the call, the import statistics, and the events actually posted
(`postChainEvents` only runs when the loop finishes or breaks, not on an
error return). -/
structure InsertResult where
  index : Nat
  err : Option InsErr
  st : ChainState
  stats : Stats
  events : List ChainEvt
deriving DecidableEq, Repr

/-- The sequential block loop of `InsertChain`.  The parallel nonce workers
are sequentialised: block `i`'s verdict is consumed right before block `i`
is processed, which is the order the loop observes on an in-order result
stream.  The state scratchpad resets (`stateCache.Reset`) are carried by the
`processBlock`/`validateState`/`commitOK` parameters; for the first block the
parent must be present in the store or the Go code would dereference nil. -/
def insertChainGo (env : Env) : Nat → ChainState → Stats → List ChainEvt →
    List Block → InsertResult
  | _, st, stats, events, [] => ⟨0, none, st, stats, events⟩
  | i, st, stats, events, b :: rest =>
    if st.procInterrupt then ⟨0, none, st, stats, events⟩
    else if ¬ env.powValid b then ⟨i, some (.badNonce i), st, stats, []⟩
    else if ¬ env.headerCheckOK b.header then ⟨i, some .headerCheckFailed, st, stats, []⟩
    else
      match env.validateBlock st b with
      | some .known =>
        insertChainGo env (i + 1) st { stats with ignored := stats.ignored + 1 } events rest
      | some .future =>
        if env.now + maxTimeFutureBlocks < b.header.time then
          ⟨i, some .futureTooFar, st, stats, []⟩
        else
          insertChainGo env (i + 1)
            { st with futureBlocks := lruAdd b.hash b st.futureBlocks }
            { stats with queued := stats.queued + 1 } events rest
      | some .parent =>
        if lruContains st.futureBlocks b.parentHash then
          insertChainGo env (i + 1)
            { st with futureBlocks := lruAdd b.hash b st.futureBlocks }
            { stats with queued := stats.queued + 1 } events rest
        else ⟨i, some (.validation .parent), st, stats, []⟩
      | some .other => ⟨i, some (.validation .other), st, stats, []⟩
      | none =>
        if i = 0 ∧ (getBlock st.db b.parentHash).isNone then ⟨i, some .fatal, st, stats, []⟩
        else
          match env.processBlock st b with
          | none => ⟨i, some .processFailed, st, stats, []⟩
          | some (receipts, usedGas) =>
            if ¬ env.validateState st b receipts usedGas then
              ⟨i, some .stateInvalid, st, stats, []⟩
            else if ¬ env.commitOK st b then ⟨i, some .commitFailed, st, stats, []⟩
            else
              let st := { st with db := writeBlockReceipts st.db b.hash receipts }
              match WriteBlock st env.reorgFuel (env.coin i) b with
              | .error e => ⟨i, some (.writeFailed e), st, stats, []⟩
              | .ok (status, st) =>
                match status with
                | .CanonStatTy =>
                  let db := writeMipmapBloom
                    (writeReceipts (writeTransactions st.db b) receipts) b.number receipts
                  insertChainGo env (i + 1) { st with db := db }
                    { stats with processed := stats.processed + 1 }
                    (events ++ [.chainEvent b.hash]) rest
                | .SideStatTy =>
                  insertChainGo env (i + 1) st
                    { stats with processed := stats.processed + 1 }
                    (events ++ [.chainSideEvent b.hash]) rest
                | _ =>
                  insertChainGo env (i + 1) st
                    { stats with processed := stats.processed + 1 }
                    (events ++ [.chainSplitEvent b.hash]) rest

/-- The pre-flight contiguity check of `InsertChain`: index of the first
`i ≥ 1` whose block does not extend block `i-1`. -/
def firstNonContiguous : List Block → Option Nat
  | [] => none
  | _ :: [] => none
  | a :: b :: rest =>
    if b.number ≠ a.number + 1 ∨ b.parentHash ≠ a.hash then some 1
    else (firstNonContiguous (b :: rest)).map (· + 1)

/-- `InsertChain`: reject a non-contiguous batch up front (returning index 0
and touching nothing), otherwise run the sequential insertion loop. -/
def InsertChain (env : Env) (st : ChainState) (chain : List Block) : InsertResult :=
  match firstNonContiguous chain with
  | some i => ⟨0, some (.nonContiguous i), st, Stats.zero, []⟩
  | none => insertChainGo env 0 st Stats.zero [] chain

/-- Modelled from the spec: `crypto.CreateAddress` derives a contract address
from sender and nonce (the crypto package is not under `src/`); an injective
pairing stands in for the keccak construction. -/
def createAddress (sender nonce : Nat) : Nat := Nat.pair sender nonce

/-- `MessageCreatesContract`: a transaction with no recipient creates a
contract (declared outside `src/`; modelled from its use and the spec). -/
def MessageCreatesContract (t : Transaction) : Bool := t.toAddr.isNone

/-- Derivation of one receipt's non-consensus fields inside the
`InsertReceiptChain` worker loop: `j` is the transaction index, `logIdx` the
running per-block log counter, `prevCum` the previous receipt's cumulative
gas (absent for `j = 0`). -/
def deriveOne (num : Nat) (bh : Hash) (t : Transaction) (j logIdx : Nat)
    (prevCum : Option Int) (r : Receipt) : Receipt :=
  { r with
    txHash := t.hash
    contractAddress :=
      if MessageCreatesContract t then createAddress t.sender t.nonce
      else r.contractAddress
    gasUsed :=
      match prevCum with
      | none => r.cumulativeGasUsed
      | some p => r.cumulativeGasUsed - p
    logs := r.logs.enum.map (fun q =>
      { q.2 with
        blockNumber := num
        blockHash := bh
        txHash := t.hash
        txIndex := j
        index := logIdx + q.1 }) }

/-- The receipt-derivation loop of `InsertReceiptChain` over the aligned
transaction/receipt lists; `none` models the index-out-of-range panic when a
block carries more receipts than transactions. -/
def deriveGo (num : Nat) (bh : Hash) : List Transaction → List Receipt →
    Nat → Nat → Option Int → Option (List Receipt)
  | _, [], _, _, _ => some []
  | [], _ :: _, _, _, _ => none
  | t :: ts, r :: rs, j, logIdx, prevCum =>
    (deriveGo num bh ts rs (j + 1) (logIdx + r.logs.length)
        (some r.cumulativeGasUsed)).map
      (deriveOne num bh t j logIdx prevCum r :: ·)

/-- `InsertReceiptChain`'s computation of all the non-consensus receipt
fields of one block. -/
def deriveReceipts (b : Block) (rs : List Receipt) : Option (List Receipt) :=
  deriveGo b.number b.hash b.transactions rs 0 0 none

/-- Errors of `InsertReceiptChain`; `fatal` is the receipts/transactions
misalignment panic. -/
inductive IrcErr where
  | unknownHeader
  | fatal
deriving DecidableEq, Repr

/-- The worker loop of `InsertReceiptChain`, sequentialised (one worker
draining the closed task channel in order; the first error flips `failed`
and stops the rest, which the sequential order models by aborting). -/
def ircGo (st : ChainState) : Nat → List (Block × List Receipt) →
    Except (Nat × IrcErr × ChainState) ChainState
  | _, [] => .ok st
  | i, (b, rs) :: rest =>
    if st.procInterrupt then .ok st
    else if ¬ hasHeader st.db b.hash then .error (i, .unknownHeader, st)
    else if hasBlock st.db b.hash then ircGo st (i + 1) rest
    else
      match deriveReceipts b rs with
      | none => .error (i, .fatal, st)
      | some rs' =>
        let db := writeBody st.db b.hash b.body
        let db := writeBlockReceipts db b.hash rs'
        let db := writeMipmapBloom db b.number rs'
        let db := writeTransactions db b
        let db := writeReceipts db rs'
        ircGo { st with db := db } (i + 1) rest

/-- `InsertReceiptChain`: fill bodies and receipts for an already known
header chain; on a clean, uninterrupted run move the head fast block to the
last batch entry when its TD beats the current fast head (`none` in the
result's error slot is the `nil` error; `fatal` also covers the nil-TD
comparison and the empty-input indexing panic). -/
def InsertReceiptChain (st : ChainState) (blocks : List Block)
    (receipts : List (List Receipt)) : Nat × Option IrcErr × ChainState :=
  let tasks := blocks.zip receipts
  match ircGo st 0 tasks with
  | .error (i, e, st') => (i, some e, st')
  | .ok st' =>
    if st'.procInterrupt then (0, none, st')
    else
      match tasks.getLast? with
      | none => (0, some .fatal, st')
      | some (head, _) =>
        match st'.currentFastBlock with
        | none => (0, some .fatal, st')
        | some fb =>
          match getTd st'.db fb.hash, getTd st'.db head.hash with
          | some ftd, some htd =>
            if ftd < htd then
              (0, none, { st' with
                currentFastBlock := some head
                db := writeHeadFastBlockHash st'.db head.hash })
            else (0, none, st')
          | _, _ => (0, some .fatal, st')

/-- `Rollback` processing of a single hash: un-elect whichever of the three
head pointers equals it, moving that pointer to its parent; `none` models
the nil dereference on a missing parent (or nil-valued heads). -/
def rollbackStep (st : ChainState) (h : Hash) : Option ChainState := do
  let st ←
    if st.currentHeader.hash = h then
      match getHeader st.db st.currentHeader.parentHash with
      | none => none
      | some ph =>
        some { st with currentHeader := ph, db := writeHeadHeaderHash st.db ph.hash }
    else some st
  let some fb := st.currentFastBlock | none
  let st ←
    if fb.hash = h then
      match getBlock st.db fb.parentHash with
      | none => none
      | some pb =>
        some { st with currentFastBlock := some pb, db := writeHeadFastBlockHash st.db pb.hash }
    else some st
  let some cb := st.currentBlock | none
  if cb.hash = h then
    match getBlock st.db cb.parentHash with
    | none => none
    | some pb =>
      some { st with currentBlock := some pb, db := writeHeadBlockHash st.db pb.hash }
  else some st

/-- `Rollback`: process the given hashes in reverse order. -/
def Rollback (st : ChainState) (chain : List Hash) : Option ChainState :=
  chain.reverse.foldlM rollbackStep st

/-- `blockIsGenesis`: `reflect.DeepEqual(b, bc.Genesis())`, i.e. structural
equality with the genesis block. -/
def blockIsGenesis (st : ChainState) (b : Block) : Bool := b = st.genesisBlock

/-- `blockIsUnhealthy` as a predicate (`true` = some health error): a
non-genesis block must have a nonzero number, a nonzero parent hash, a
resolvable parent block, and a header validating against that parent. -/
def blockUnhealthy (env : Env) (st : ChainState) (b : Block) : Bool :=
  if blockIsGenesis st b then false
  else if b.number = 0 then true
  else if b.parentHash = zeroHash then true
  else
    match getBlock st.db b.parentHash with
    | none => true
    | some parent => ¬ env.validateHeader b.header parent.header

/-- The hashes canonical at heights above `n` (to be deleted by the header
chain's `SetHead`). -/
def hcDoomed (db : DB) (n : Nat) : List Hash :=
  (db.canonical.filter (fun p => n < p.1)).map (·.2)

/-- The store truncation performed by the header chain's `SetHead`: drop
every canonical mapping above `n` and the headers, TDs and (through the
body-deletion callback) bodies of the doomed hashes. -/
def hcTrim (db : DB) (n : Nat) : DB :=
  { db with
    canonical := db.canonical.filter (fun p => p.1 ≤ n)
    headers := db.headers.filter (fun p => ¬ (hcDoomed db n).contains p.1)
    tds := db.tds.filter (fun p => ¬ (hcDoomed db n).contains p.1)
    bodies := db.bodies.filter (fun p => ¬ (hcDoomed db n).contains p.1) }

/-- Modelled from the spec: `HeaderChain.SetHead(n, delBodyFn)`
(`header_chain.go` is not under `src/`): for every height `> n` in the
canonical index delete the canonical mapping, header and TD and invoke the
body-deletion callback; set the current header to canonical `n`'s header, or
genesis, and persist the head-header pointer. -/
def hcSetHead (st : ChainState) (n : Nat) : ChainState :=
  let db := hcTrim st.db n
  let newHead : Header :=
    ((alookup db.canonical n).bind (alookup db.headers)).getD st.genesisBlock.header
  { st with
    currentHeader := newHead
    db := writeHeadHeaderHash db newHead.hash }

/-- The head-block rewind of `SetHead`: keep the current block if it is not
above the (already truncated) current header, otherwise re-read the block at
the new head header's hash. -/
def rewindBlock (st : ChainState) (ch : Header) : Option Block :=
  match st.currentBlock with
  | some b => if ch.number < b.number then getBlock st.db ch.hash else some b
  | none => none

/-- The fast-block rewind of `SetHead` (same shape, on the fast head). -/
def rewindFast (st : ChainState) (ch : Header) : Option Block :=
  match st.currentFastBlock with
  | some b => if ch.number < b.number then getBlock st.db ch.hash else some b
  | none => none

/-- The `state.New(...) != nil` probe of `SetHead`: drop the rewound head
block when its state root is not resolvable. -/
def checkRoot (db : DB) : Option Block → Option Block
  | some b => if db.stateRoots.contains b.root then some b else none
  | none => none

/-- The part of `SetHead` before its final `loadLastState` call: truncate
the header chain (dropping bodies), purge the caches, rewind the block and
fast-block heads (falling back to genesis when the rewound block or its
state is missing) and persist the two head pointers. -/
def setHeadCore (st : ChainState) (n : Nat) : ChainState :=
  let st := hcSetHead st n
  let st := { st with futureBlocks := [] }
  let ch := st.currentHeader
  let cb := (checkRoot st.db (rewindBlock st ch)).getD st.genesisBlock
  let fb := (rewindFast st ch).getD st.genesisBlock
  { st with
    currentBlock := some cb
    currentFastBlock := some fb
    db := writeHeadFastBlockHash (writeHeadBlockHash st.db cb.hash) fb.hash }

/-- The tail of `ResetWithGenesisBlock` after its inner `SetHead(0)`:
rewrite the genesis TD, header and body, `insert` genesis, and point every
head at it. -/
def finishReset (g : Block) (st : ChainState) : ChainState :=
  let db := writeTd st.db g.hash g.difficulty
  let db := dbWriteBlock db g
  let st := { st with db := db, genesisBlock := g }
  let st := insert st g
  { st with
    currentBlock := some g
    currentHeader := g.header
    currentFastBlock := some g
    db := writeHeadHeaderHash st.db g.hash }

/-- The forward-scan loop of `loadLastState`: probe heights
`1, 1+2048, 1+2·2048, …` below `5000000`, stop at the first height with no
canonical block, and remember the last healthy block seen
(`steps` bounds the number of probes; the loop makes at most 2442). -/
def scanLoop (env : Env) (st : ChainState) : Nat → Nat → Option Block → Option Block
  | 0, _, acc => acc
  | steps + 1, i, acc =>
    if i < 5000000 then
      match getBlockByNumber st.db i with
      | none => acc
      | some bb =>
        scanLoop env st steps (i + 2048)
          (if blockUnhealthy env st bb then acc else some bb)
    else acc

/-- The forward-rewind probe of `loadLastState`. -/
def scanForward (env : Env) (st : ChainState) : Option Block :=
  scanLoop env st 2442 1 none

/-- `loadLastState`, fuelled (the Go code recurses through `SetHead` and
`Reset`, and can do so forever on a database whose genesis state is
unresolvable; `none` models a run that never returns).  Structure follows
the source: read and sanity-check the head block (resetting the chain on any
problem), restore the head header and fast block, and — when all three heads
resolved to genesis — scan forward for a healthy later block and rewind to
it via `SetHead`, which re-runs this function.  `loadHeadHeader` is its head-header restore step. -/
def loadHeadHeader (db : DB) (cb : Block) : Header :=
  match db.headHeader with
  | some hh => (getHeader db hh).getD cb.header
  | none => cb.header

/-- The head-fast-block restore step of `loadLastState`. -/
def loadFastBlock (db : DB) (cb : Block) : Block :=
  match db.headFast with
  | some fh => (getBlock db fh).getD cb
  | none => cb

def loadLastState (env : Env) : Nat → ChainState → Option ChainState
  | 0, _ => none
  | fuel + 1, st =>
    let reset : Option ChainState :=
      (loadLastState env fuel (setHeadCore st 0)).map (finishReset st.genesisBlock)
    match st.db.headBlock with
    | none => reset
    | some headH =>
      match getBlock st.db headH with
      | none => reset
      | some cb =>
        if blockUnhealthy env st cb then reset
        else if (¬ blockIsGenesis st cb &&
            (match env.validateBlock st cb with
             | some e => e ≠ VErr.known
             | none => false) : Bool) then reset
        else if ¬ st.db.stateRoots.contains cb.root then reset
        else
          let hdr := loadHeadHeader st.db cb
          let fb := loadFastBlock st.db cb
          let st := { st with
            currentBlock := some cb
            currentHeader := hdr
            currentFastBlock := some fb }
          if blockIsGenesis st cb ∧ blockIsGenesis st fb ∧
              hdr = st.genesisBlock.header then
            match scanForward env st with
            | some lastOk => loadLastState env fuel (setHeadCore st lastOk.number)
            | none => some st
          else some st

/-- `SetHead`: truncate to the target height, then reload the chain state. -/
def SetHead (env : Env) (fuel : Nat) (st : ChainState) (n : Nat) : Option ChainState :=
  loadLastState env fuel (setHeadCore st n)

/-- `Reset`: `SetHead(0)` followed by re-planting the (current) genesis. -/
def Reset (env : Env) (fuel : Nat) (st : ChainState) : Option ChainState :=
  (SetHead env fuel st 0).map (finishReset st.genesisBlock)

/-- `ErrNoGenesis` and its companions. -/
inductive NewErr where
  | noGenesis
  | loadFailed
deriving DecidableEq, Repr

/-- `NewBlockChain`, from the genesis check on (cache construction and the
header-chain handle are value-free here; the bad-hash rewind loop is outside
the claims' scope and runs only with a nonempty `BadHashes` config): look up
the canonical block at height 0, fail with `ErrNoGenesis` when it is absent,
otherwise adopt it as the genesis and run `loadLastState`. -/
def NewBlockChain (env : Env) (fuel : Nat) (db : DB) (interrupt : Bool) :
    Except NewErr ChainState × DB :=
  match getBlockByNumber db 0 with
  | none => (.error .noGenesis, db)
  | some g =>
    let st : ChainState :=
      { db := db
        currentBlock := none
        currentFastBlock := none
        currentHeader := g.header
        genesisBlock := g
        futureBlocks := []
        procInterrupt := interrupt }
    match loadLastState env fuel st with
    | none => (.error .loadFailed, db)
    | some st' => (.ok st', st'.db)

/-! ## Association-list lemmas -/

theorem alookup_cons {β : Type} (k k' : Nat) (v : β) (l : List (Nat × β)) :
    alookup ((k, v) :: l) k' = if k = k' then some v else alookup l k' := rfl

theorem alookup_mem {β : Type} {l : List (Nat × β)} {k : Nat} {v : β}
    (h : alookup l k = some v) : (k, v) ∈ l := by
  induction l with
  | nil => simp [alookup] at h
  | cons p t ih =>
    obtain ⟨k', v'⟩ := p
    rw [alookup] at h
    by_cases hk : k' = k
    · subst hk
      simp only [if_pos rfl] at h
      cases h
      exact List.mem_cons_self _ _
    · rw [if_neg hk] at h
      exact List.mem_cons_of_mem _ (ih h)

theorem alookup_filter_key {β : Type} (q : Nat → Bool) (l : List (Nat × β)) (k : Nat) :
    alookup (l.filter (fun p => q p.1)) k = if q k then alookup l k else none := by
  induction l with
  | nil => simp [alookup]
  | cons p t ih =>
    obtain ⟨k', v'⟩ := p
    by_cases hq : q k'
    · rw [List.filter_cons_of_pos (by simpa using hq)]
      rw [alookup, alookup, ih]
      by_cases hk : k' = k
      · subst hk; simp [hq]
      · simp [hk]
    · rw [List.filter_cons_of_neg (by simpa using hq)]
      rw [ih]
      by_cases hqk : q k
      · rw [if_pos hqk, if_pos hqk, alookup]
        have hk : k' ≠ k := by
          intro hkk
          rw [hkk] at hq
          exact hq hqk
        rw [if_neg hk]
      · rw [if_neg hqk, if_neg hqk]

theorem alookup_none_of_filter {β : Type} (q : Nat → Bool) (l : List (Nat × β)) (k : Nat)
    (h : alookup l k = none) : alookup (l.filter (fun p => q p.1)) k = none := by
  rw [alookup_filter_key]
  split <;> simp [h]

theorem alookup_append_right {β : Type} (l₁ l₂ : List (Nat × β)) (k : Nat)
    (h : ∀ p ∈ l₁, p.1 ≠ k) : alookup (l₁ ++ l₂) k = alookup l₂ k := by
  induction l₁ with
  | nil => rfl
  | cons p t ih =>
    obtain ⟨k', v'⟩ := p
    rw [List.cons_append, alookup]
    rw [if_neg (h (k', v') (List.mem_cons_self _ _))]
    exact ih (fun p hp => h p (List.mem_cons_of_mem _ hp))

theorem alookup_isSome_append_left {β : Type} (l₁ l₂ : List (Nat × β)) (k : Nat)
    (h : (alookup l₁ k).isSome) : (alookup (l₁ ++ l₂) k).isSome := by
  induction l₁ with
  | nil => simp [alookup] at h
  | cons p t ih =>
    obtain ⟨k', v'⟩ := p
    rw [List.cons_append, alookup]
    rw [alookup] at h
    by_cases hk : k' = k
    · simp [hk]
    · rw [if_neg hk] at h ⊢
      exact ih h

/-! ## C10: missing genesis -/

/-- C10: with no canonical block at height 0, `NewBlockChain` fails with
`ErrNoGenesis` before any recovery or state loading, returning the database
untouched (in particular it fabricates no genesis block). -/
theorem C10_no_genesis (env : Env) (fuel : Nat) (db : DB) (intr : Bool)
    (h : getBlockByNumber db 0 = none) :
    NewBlockChain env fuel db intr = (.error .noGenesis, db) := by
  unfold NewBlockChain
  rw [h]

/-- A fully permissive environment for concrete runs. -/
def exEnv : Env :=
  { now := 1000
    coin := fun _ => false
    powValid := fun _ => true
    headerCheckOK := fun _ => true
    validateBlock := fun _ _ => none
    validateHeader := fun _ _ => true
    processBlock := fun _ _ => some ([], 0)
    validateState := fun _ _ _ _ => true
    commitOK := fun _ _ => true
    reorgFuel := 32 }

/-- A database with no entries at all. -/
def emptyDB : DB := ⟨[], [], [], [], [], [], [], [], none, none, none, []⟩

theorem C10_no_genesis_witness :
    getBlockByNumber emptyDB 0 = none ∧
    NewBlockChain exEnv 4 emptyDB false = (.error .noGenesis, emptyDB) :=
  ⟨rfl, C10_no_genesis exEnv 4 emptyDB false rfl⟩

/-! ## C2: non-contiguous input batches -/

theorem firstNonContiguous_isSome :
    ∀ (chain : List Block) (j : Nat) (a b : Block),
      chain.get? j = some a → chain.get? (j + 1) = some b →
      (b.number ≠ a.number + 1 ∨ b.parentHash ≠ a.hash) →
      (firstNonContiguous chain).isSome := by
  intro chain
  induction chain with
  | nil => intro j a b ha _ _; simp at ha
  | cons x t ih =>
    intro j a b ha hb hbad
    match t with
    | [] =>
      match j with
      | 0 => simp at hb
      | j + 1 => simp at hb
    | y :: rest =>
      rw [firstNonContiguous]
      by_cases hfirst : y.number ≠ x.number + 1 ∨ y.parentHash ≠ x.hash
      · simp only [if_pos hfirst, Option.isSome_some]
      · rw [if_neg hfirst]
        match j with
        | 0 =>
          simp only [List.get?_cons_zero, List.get?_cons_succ] at ha hb
          cases ha
          cases hb
          exact absurd hbad hfirst
        | j + 1 =>
          simp only [List.get?_cons_succ] at ha hb
          have := ih j a b ha hb hbad
          rcases Option.isSome_iff_exists.mp this with ⟨m, hm⟩
          simp [hm]

/-- C2: an input chain broken at some index `i ≥ 1` (wrong number or wrong
parent hash) makes `InsertChain` return index 0 with a non-contiguity error,
with the chain state (store included) untouched, zero statistics and no
events. -/
theorem C2_nonContiguous (env : Env) (st : ChainState) (chain : List Block)
    (i : Nat) (a b : Block) (hi : 1 ≤ i)
    (ha : chain.get? (i - 1) = some a) (hb : chain.get? i = some b)
    (hbad : b.number ≠ a.number + 1 ∨ b.parentHash ≠ a.hash) :
    ∃ j, InsertChain env st chain =
      ⟨0, some (.nonContiguous j), st, Stats.zero, []⟩ := by
  obtain ⟨j, rfl⟩ : ∃ j, i = j + 1 := ⟨i - 1, by omega⟩
  simp only [Nat.add_sub_cancel] at ha
  have hs := firstNonContiguous_isSome chain j a b ha hb hbad
  rcases Option.isSome_iff_exists.mp hs with ⟨m, hm⟩
  refine ⟨m, ?_⟩
  unfold InsertChain
  rw [hm]

/-- Concrete genesis header: hash 1, number 0, difficulty 10, state root 500. -/
def gHeader : Header := ⟨1, 0, 0, 10, 0, 500⟩

def gBlock : Block := ⟨gHeader, ⟨[]⟩⟩

/-- A store holding exactly the genesis block, canonical at height 0, with
its TD and resolvable state. -/
def baseDB : DB :=
  { headers := [(1, gHeader)]
    bodies := [(1, (⟨[]⟩ : Body))]
    blockReceipts := []
    receiptLookup := []
    txLookup := []
    tds := [(1, 10)]
    canonical := [(0, 1)]
    mipmap := []
    headBlock := some 1
    headHeader := some 1
    headFast := some 1
    stateRoots := [500] }

/-- A freshly loaded chain sitting at genesis. -/
def baseSt : ChainState :=
  { db := baseDB
    currentBlock := some gBlock
    currentFastBlock := some gBlock
    currentHeader := gHeader
    genesisBlock := gBlock
    futureBlocks := []
    procInterrupt := false }

/-- Block #1 on top of genesis (hash 2). -/
def b1Header : Header := ⟨2, 1, 1, 10, 10, 501⟩

def b1Block : Block := ⟨b1Header, ⟨[]⟩⟩

/-- Block #3, whose parent (#2) is skipped: `[B1, B3]` is non-contiguous. -/
def b3Header : Header := ⟨4, 3, 3, 10, 30, 503⟩

def b3Block : Block := ⟨b3Header, ⟨[]⟩⟩

theorem C2_nonContiguous_witness :
    (b3Block.number ≠ b1Block.number + 1 ∨ b3Block.parentHash ≠ b1Block.hash) ∧
    ∃ j, InsertChain exEnv baseSt [b1Block, b3Block] =
      ⟨0, some (.nonContiguous j), baseSt, Stats.zero, []⟩ :=
  ⟨by decide,
   C2_nonContiguous exEnv baseSt [b1Block, b3Block] 1 b1Block b3Block
     (by decide) rfl rfl (by decide)⟩

/-! ## C6: interrupt flag -/

/-- C6: with the process-wide interrupt flag set, `InsertChain` (on any batch
passing the pre-flight contiguity check) stops at the first loop iteration
and returns `(0, nil)` with the state untouched, and `InsertReceiptChain`
returns `(0, nil)` without updating the fast-sync head pointer or anything
else. -/
theorem C6_interrupt (env : Env) (st : ChainState) (chain blocks : List Block)
    (receipts : List (List Receipt)) (hint : st.procInterrupt = true)
    (hc : firstNonContiguous chain = none) :
    InsertChain env st chain = ⟨0, none, st, Stats.zero, []⟩ ∧
    InsertReceiptChain st blocks receipts = (0, none, st) := by
  constructor
  · unfold InsertChain
    rw [hc]
    match chain with
    | [] => rfl
    | b :: rest =>
      rw [insertChainGo]
      rw [hint]
      simp
  · have hgo : ∀ i tasks, ircGo st i tasks = .ok st := by
      intro i tasks
      cases tasks with
      | nil => rw [ircGo]
      | cons t rest =>
        obtain ⟨b, rs⟩ := t
        rw [ircGo, hint]
        simp
    unfold InsertReceiptChain
    simp only [hgo, hint, if_true]

/-- The base state with the interrupt tripped. -/
def stoppedSt : ChainState := { baseSt with procInterrupt := true }

theorem C6_interrupt_witness :
    stoppedSt.procInterrupt = true ∧
    InsertChain exEnv stoppedSt [b1Block] = ⟨0, none, stoppedSt, Stats.zero, []⟩ ∧
    InsertReceiptChain stoppedSt [b1Block] [[]] = (0, none, stoppedSt) :=
  ⟨rfl, C6_interrupt exEnv stoppedSt [b1Block] [b1Block] [[]] rfl rfl⟩

/-! ## C5: future-block parking during `InsertChain` -/

/-- C5: within the `InsertChain` loop (no interrupt, nonce and network
checks passing), a future-block validation error parks the block in the
future-blocks LRU (capacity 256) and counts it as queued when its timestamp
is within `now + 30s`, and aborts with `(i, err)` beyond that bound; a
parent-missing error parks likewise when the parent is itself parked; every
other validation error (known-block skips aside) aborts the batch with
`(i, err)`. -/
theorem C5_future_parking (env : Env) (i : Nat) (st : ChainState) (stats : Stats)
    (events : List ChainEvt) (b : Block) (rest : List Block)
    (hni : st.procInterrupt = false) (hpow : env.powValid b = true)
    (hhc : env.headerCheckOK b.header = true) :
    (env.validateBlock st b = some .future →
      (b.header.time ≤ env.now + maxTimeFutureBlocks →
        insertChainGo env i st stats events (b :: rest) =
          insertChainGo env (i + 1)
            { st with futureBlocks := lruAdd b.hash b st.futureBlocks }
            { stats with queued := stats.queued + 1 } events rest ∧
        lruContains (lruAdd b.hash b st.futureBlocks) b.hash = true ∧
        (lruAdd b.hash b st.futureBlocks).length ≤ maxFutureBlocks) ∧
      (env.now + maxTimeFutureBlocks < b.header.time →
        insertChainGo env i st stats events (b :: rest) =
          ⟨i, some .futureTooFar, st, stats, []⟩)) ∧
    (env.validateBlock st b = some .parent →
      lruContains st.futureBlocks b.parentHash = true →
      insertChainGo env i st stats events (b :: rest) =
        insertChainGo env (i + 1)
          { st with futureBlocks := lruAdd b.hash b st.futureBlocks }
          { stats with queued := stats.queued + 1 } events rest) ∧
    (∀ e, env.validateBlock st b = some e → e ≠ .known → e ≠ .future →
      (e = .parent → lruContains st.futureBlocks b.parentHash = false) →
      insertChainGo env i st stats events (b :: rest) =
        ⟨i, some (.validation e), st, stats, []⟩) := by
  rw [insertChainGo, hni]
  simp only [Bool.false_eq_true, if_false, hpow, hhc, not_true, if_neg, ite_false,
    Bool.not_true, reduceIte]
  refine ⟨?_, ?_, ?_⟩
  · intro hv
    rw [hv]
    constructor
    · intro htime
      rw [if_neg (by omega)]
      refine ⟨rfl, ?_, ?_⟩
      · show lruContains (((b.hash, b) :: _).take maxFutureBlocks) b.hash = true
        rw [show maxFutureBlocks = 255 + 1 from rfl, List.take_succ_cons]
        simp [lruContains]
      · exact le_trans (List.length_take_le _ _) (le_refl _)
    · intro htime
      rw [if_pos htime]
  · intro hv hparked
    rw [hv, hparked]
    simp
  · intro e hv hknown hfuture hparent
    rw [hv]
    cases e with
    | known => exact absurd rfl hknown
    | future => exact absurd rfl hfuture
    | parent => rw [hparent rfl]; simp
    | other => rfl

/-- A block 20 seconds ahead of the environment clock (hash 30). -/
def futBlock : Block := ⟨⟨30, 1, 1, 10, 1020, 510⟩, ⟨[]⟩⟩

/-- An environment whose validator reports `futBlock` as a future block. -/
def futEnv : Env :=
  { exEnv with
    validateBlock := fun _ b => if b.hash = 30 then some .future else none }

theorem C5_future_parking_witness :
    baseSt.procInterrupt = false ∧
    futEnv.validateBlock baseSt futBlock = some .future ∧
    futBlock.header.time ≤ futEnv.now + maxTimeFutureBlocks ∧
    (insertChainGo futEnv 0 baseSt Stats.zero [] [futBlock] =
        insertChainGo futEnv 1
          { baseSt with futureBlocks := lruAdd futBlock.hash futBlock baseSt.futureBlocks }
          { Stats.zero with queued := Stats.zero.queued + 1 } [] [] ∧
      lruContains (lruAdd futBlock.hash futBlock baseSt.futureBlocks) futBlock.hash = true ∧
      (lruAdd futBlock.hash futBlock baseSt.futureBlocks).length ≤ maxFutureBlocks) :=
  ⟨rfl, rfl, by decide,
   ((C5_future_parking futEnv 0 baseSt Stats.zero [] futBlock [] rfl rfl rfl).1 rfl).1
     (by decide)⟩

/-! ## C1: `WriteBlock` fork choice and unconditional persistence -/

theorem writeBlock_persists (db : DB) (b : Block) (td : Int) :
    getTd (dbWriteBlock (writeTd db b.hash td) b) b.hash = some td ∧
    getHeader (dbWriteBlock (writeTd db b.hash td) b) b.hash = some b.header ∧
    getBody (dbWriteBlock (writeTd db b.hash td) b) b.hash = some b.body := by
  unfold dbWriteBlock writeBody writeHeader writeTd getTd getHeader getBody
  refine ⟨?_, ?_, ?_⟩ <;> simp [alookup, Block.hash]

/-- C1: when the parent TD is known, `WriteBlock` computes
`externTd = ptd + difficulty` and compares it with the TD of the current
head: it adopts the block (status `CanonStatTy`, becoming the current block,
with a reorg having succeeded first whenever the parent is not the current
head) exactly when `externTd > localTd`, or when `externTd = localTd` and
the 0.5-probability coin came up; otherwise the block is a side branch
(`SideStatTy`); in both cases the block's TD, header and body are persisted. -/
theorem C1_WriteBlock_fork_choice (st : ChainState) (fuel : Nat) (coin : Bool)
    (b cb : Block) (ptd localTd : Int) (status : WriteStatus) (st' : ChainState)
    (hcb : st.currentBlock = some cb)
    (hptd : getTd st.db b.parentHash = some ptd)
    (hltd : getTd st.db cb.hash = some localTd)
    (hw : WriteBlock st fuel coin b = .ok (status, st')) :
    (status = .CanonStatTy ↔
      (localTd < ptd + b.difficulty ∨ (ptd + b.difficulty = localTd ∧ coin = true))) ∧
    (status = .CanonStatTy ∨ status = .SideStatTy) ∧
    getTd st'.db b.hash = some (ptd + b.difficulty) ∧
    getHeader st'.db b.hash = some b.header ∧
    getBody st'.db b.hash = some b.body ∧
    (status = .CanonStatTy → st'.currentBlock = some b) ∧
    (status = .CanonStatTy → b.parentHash ≠ cb.hash →
      ∃ str, reorg st fuel cb b = some str) := by
  have hco : b.difficulty + ptd = ptd + b.difficulty := Int.add_comm _ _
  rw [← hco]
  have hins : ∀ s : ChainState, (insert s b).currentBlock = some b := by
    intro s
    by_cases h : getCanonicalHash s.db b.number ≠ some b.hash <;> simp [insert, h]
  unfold WriteBlock at hw
  rw [hptd, hcb] at hw
  simp only at hw
  rw [hltd] at hw
  simp only [bind, Except.bind, pure, Except.pure] at hw
  by_cases hadopt : localTd < b.difficulty + ptd ∨ (b.difficulty + ptd = localTd ∧ coin = true)
  · rw [if_pos (by simpa using hadopt)] at hw
    by_cases hpar : b.parentHash ≠ cb.hash
    · rw [if_pos (by simpa using hpar)] at hw
      cases hre : reorg st fuel cb b with
      | none => rw [hre] at hw; cases hw
      | some str =>
        rw [hre] at hw
        simp only [Except.ok.injEq, Prod.mk.injEq] at hw
        obtain ⟨hstatus, hst'⟩ := hw
        subst hstatus
        subst hst'
        have hp := writeBlock_persists (insert str b).db b (b.difficulty + ptd)
        exact ⟨by simp [hadopt], Or.inl rfl, hp.1, hp.2.1, hp.2.2,
          fun _ => hins str, fun _ _ => ⟨str, rfl⟩⟩
    · rw [if_neg (by simpa using hpar)] at hw
      simp only [Except.ok.injEq, Prod.mk.injEq] at hw
      obtain ⟨hstatus, hst'⟩ := hw
      subst hstatus
      subst hst'
      have hp := writeBlock_persists (insert st b).db b (b.difficulty + ptd)
      refine ⟨by simp [hadopt], Or.inl rfl, hp.1, hp.2.1, hp.2.2, fun _ => hins st, ?_⟩
      intro _ hne
      exact absurd (by simpa using hpar) (by simpa using hne)
  · rw [if_neg (by simpa using hadopt)] at hw
    simp only [Except.ok.injEq, Prod.mk.injEq] at hw
    obtain ⟨hstatus, hst'⟩ := hw
    subst hstatus
    subst hst'
    have hp := writeBlock_persists st.db b (b.difficulty + ptd)
    refine ⟨?_, Or.inr rfl, hp.1, hp.2.1, hp.2.2, ?_, ?_⟩
    · constructor
      · intro h; cases h
      · intro h; exact absurd h hadopt
    · intro h; cases h
    · intro h; cases h

theorem C1_WriteBlock_fork_choice_witness :
    baseSt.currentBlock = some gBlock ∧
    getTd baseSt.db b1Block.parentHash = some 10 ∧
    getTd baseSt.db gBlock.hash = some 10 ∧
    ∃ status st', WriteBlock baseSt 10 false b1Block = Except.ok (status, st') ∧
      ((status = WriteStatus.CanonStatTy ↔
          ((10 : Int) < 10 + b1Block.difficulty ∨
            ((10 : Int) + b1Block.difficulty = 10 ∧ false = true))) ∧
        (status = WriteStatus.CanonStatTy ∨ status = WriteStatus.SideStatTy) ∧
        getTd st'.db b1Block.hash = some (10 + b1Block.difficulty) ∧
        getHeader st'.db b1Block.hash = some b1Block.header ∧
        getBody st'.db b1Block.hash = some b1Block.body ∧
        (status = WriteStatus.CanonStatTy → st'.currentBlock = some b1Block) ∧
        (status = WriteStatus.CanonStatTy → b1Block.parentHash ≠ gBlock.hash →
          ∃ str, reorg baseSt 10 gBlock b1Block = some str)) := by
  refine ⟨rfl, rfl, rfl, _, _, rfl, ?_⟩
  exact C1_WriteBlock_fork_choice baseSt 10 false b1Block gBlock 10 10 _ _ rfl rfl rfl rfl

/-! ## C9: `Rollback` only un-elects -/

/-- Equality of every data table of two databases (head pointers excluded):
what `Rollback` must leave untouched. -/
def SameTables (d d' : DB) : Prop :=
  d'.headers = d.headers ∧ d'.bodies = d.bodies ∧
  d'.blockReceipts = d.blockReceipts ∧ d'.receiptLookup = d.receiptLookup ∧
  d'.txLookup = d.txLookup ∧ d'.tds = d.tds ∧
  d'.canonical = d.canonical ∧ d'.mipmap = d.mipmap ∧
  d'.stateRoots = d.stateRoots

theorem sameTables_refl (d : DB) : SameTables d d :=
  ⟨rfl, rfl, rfl, rfl, rfl, rfl, rfl, rfl, rfl⟩

theorem sameTables_trans {a b c : DB} (h1 : SameTables a b) (h2 : SameTables b c) :
    SameTables a c := by
  obtain ⟨e1, e2, e3, e4, e5, e6, e7, e8, e9⟩ := h1
  obtain ⟨f1, f2, f3, f4, f5, f6, f7, f8, f9⟩ := h2
  exact ⟨f1.trans e1, f2.trans e2, f3.trans e3, f4.trans e4, f5.trans e5,
    f6.trans e6, f7.trans e7, f8.trans e8, f9.trans e9⟩

theorem rollbackStep_frame (st : ChainState) (h : Hash) (s' : ChainState)
    (hstep : rollbackStep st h = some s') : SameTables st.db s'.db := by
  unfold rollbackStep at hstep
  simp only [bind, Option.bind] at hstep
  repeat' split at hstep
  all_goals cases hstep
  all_goals exact ⟨rfl, rfl, rfl, rfl, rfl, rfl, rfl, rfl, rfl⟩

theorem headHeader_writeHB (db : DB) (h : Hash) : (writeHeadBlockHash db h).headHeader = db.headHeader := rfl

theorem headHeader_writeHF (db : DB) (h : Hash) : (writeHeadFastBlockHash db h).headHeader = db.headHeader := rfl

theorem headHeader_writeHH (db : DB) (h : Hash) : (writeHeadHeaderHash db h).headHeader = some h := rfl

theorem headFast_writeHB (db : DB) (h : Hash) : (writeHeadBlockHash db h).headFast = db.headFast := rfl

theorem headFast_writeHH (db : DB) (h : Hash) : (writeHeadHeaderHash db h).headFast = db.headFast := rfl

theorem headFast_writeHF (db : DB) (h : Hash) : (writeHeadFastBlockHash db h).headFast = some h := rfl

theorem headBlock_writeHH (db : DB) (h : Hash) : (writeHeadHeaderHash db h).headBlock = db.headBlock := rfl

theorem headBlock_writeHF (db : DB) (h : Hash) : (writeHeadFastBlockHash db h).headBlock = db.headBlock := rfl

theorem headBlock_writeHB (db : DB) (h : Hash) : (writeHeadBlockHash db h).headBlock = some h := rfl

theorem getBlock_writeHB (db : DB) (h x : Hash) : getBlock (writeHeadBlockHash db h) x = getBlock db x := rfl

theorem getBlock_writeHF (db : DB) (h x : Hash) : getBlock (writeHeadFastBlockHash db h) x = getBlock db x := rfl

theorem getBlock_writeHH (db : DB) (h x : Hash) : getBlock (writeHeadHeaderHash db h) x = getBlock db x := rfl

theorem getHeader_writeHB (db : DB) (h x : Hash) : getHeader (writeHeadBlockHash db h) x = getHeader db x := rfl

theorem getHeader_writeHF (db : DB) (h x : Hash) : getHeader (writeHeadFastBlockHash db h) x = getHeader db x := rfl

theorem getHeader_writeHH (db : DB) (h x : Hash) : getHeader (writeHeadHeaderHash db h) x = getHeader db x := rfl

theorem rollbackStep_header_moved (st : ChainState) (hh : Hash) (s1 : ChainState)
    (hstep : rollbackStep st hh = some s1) (heq : st.currentHeader.hash = hh) :
    ∃ ph, getHeader st.db st.currentHeader.parentHash = some ph ∧
      s1.currentHeader = ph ∧ s1.db.headHeader = some ph.hash := by
  unfold rollbackStep at hstep
  rw [if_pos heq] at hstep
  simp only [bind, Option.bind] at hstep
  cases hph : getHeader st.db st.currentHeader.parentHash with
  | none => rw [hph] at hstep; cases hstep
  | some ph =>
    rw [hph] at hstep
    repeat' split at hstep
    all_goals cases hstep
    all_goals simp_all [headHeader_writeHB, headHeader_writeHF, headHeader_writeHH,
      headFast_writeHB, headFast_writeHH, headFast_writeHF, headBlock_writeHH,
      headBlock_writeHF, headBlock_writeHB, getBlock_writeHB, getBlock_writeHF,
      getBlock_writeHH, getHeader_writeHB, getHeader_writeHF, getHeader_writeHH]

theorem rollbackStep_header_untouched (st : ChainState) (hh : Hash) (s1 : ChainState)
    (hstep : rollbackStep st hh = some s1) (hne : st.currentHeader.hash ≠ hh) :
    s1.currentHeader = st.currentHeader ∧ s1.db.headHeader = st.db.headHeader := by
  unfold rollbackStep at hstep
  rw [if_neg hne] at hstep
  simp only [bind, Option.bind] at hstep
  repeat' split at hstep
  all_goals cases hstep
  all_goals exact ⟨rfl, rfl⟩

theorem rollbackStep_fast_moved (st : ChainState) (hh : Hash) (s1 : ChainState) (fb : Block)
    (hstep : rollbackStep st hh = some s1) (hfb : st.currentFastBlock = some fb)
    (heq : fb.hash = hh) :
    ∃ pb, getBlock st.db fb.parentHash = some pb ∧
      s1.currentFastBlock = some pb ∧ s1.db.headFast = some pb.hash := by
  unfold rollbackStep at hstep
  simp only [bind, Option.bind] at hstep
  by_cases h1 : st.currentHeader.hash = hh
  · rw [if_pos h1] at hstep
    repeat' split at hstep
    all_goals cases hstep
    all_goals simp_all [headHeader_writeHB, headHeader_writeHF, headHeader_writeHH,
      headFast_writeHB, headFast_writeHH, headFast_writeHF, headBlock_writeHH,
      headBlock_writeHF, headBlock_writeHB, getBlock_writeHB, getBlock_writeHF,
      getBlock_writeHH, getHeader_writeHB, getHeader_writeHF, getHeader_writeHH]
  · rw [if_neg h1] at hstep
    repeat' split at hstep
    all_goals cases hstep
    all_goals simp_all [headHeader_writeHB, headHeader_writeHF, headHeader_writeHH,
      headFast_writeHB, headFast_writeHH, headFast_writeHF, headBlock_writeHH,
      headBlock_writeHF, headBlock_writeHB, getBlock_writeHB, getBlock_writeHF,
      getBlock_writeHH, getHeader_writeHB, getHeader_writeHF, getHeader_writeHH]

theorem rollbackStep_fast_untouched (st : ChainState) (hh : Hash) (s1 : ChainState) (fb : Block)
    (hstep : rollbackStep st hh = some s1) (hfb : st.currentFastBlock = some fb)
    (hne : fb.hash ≠ hh) :
    s1.currentFastBlock = st.currentFastBlock ∧ s1.db.headFast = st.db.headFast := by
  unfold rollbackStep at hstep
  simp only [bind, Option.bind] at hstep
  by_cases h1 : st.currentHeader.hash = hh
  · rw [if_pos h1] at hstep
    repeat' split at hstep
    all_goals cases hstep
    all_goals simp_all [headHeader_writeHB, headHeader_writeHF, headHeader_writeHH,
      headFast_writeHB, headFast_writeHH, headFast_writeHF, headBlock_writeHH,
      headBlock_writeHF, headBlock_writeHB, getBlock_writeHB, getBlock_writeHF,
      getBlock_writeHH, getHeader_writeHB, getHeader_writeHF, getHeader_writeHH]
  · rw [if_neg h1] at hstep
    repeat' split at hstep
    all_goals cases hstep
    all_goals simp_all [headHeader_writeHB, headHeader_writeHF, headHeader_writeHH,
      headFast_writeHB, headFast_writeHH, headFast_writeHF, headBlock_writeHH,
      headBlock_writeHF, headBlock_writeHB, getBlock_writeHB, getBlock_writeHF,
      getBlock_writeHH, getHeader_writeHB, getHeader_writeHF, getHeader_writeHH]

theorem rollbackStep_block_moved (st : ChainState) (hh : Hash) (s1 : ChainState) (cb : Block)
    (hstep : rollbackStep st hh = some s1) (hcb : st.currentBlock = some cb)
    (heq : cb.hash = hh) :
    ∃ pb, getBlock st.db cb.parentHash = some pb ∧
      s1.currentBlock = some pb ∧ s1.db.headBlock = some pb.hash := by
  unfold rollbackStep at hstep
  simp only [bind, Option.bind] at hstep
  by_cases h1 : st.currentHeader.hash = hh
  · rw [if_pos h1] at hstep
    repeat' split at hstep
    all_goals cases hstep
    all_goals simp_all [headHeader_writeHB, headHeader_writeHF, headHeader_writeHH,
      headFast_writeHB, headFast_writeHH, headFast_writeHF, headBlock_writeHH,
      headBlock_writeHF, headBlock_writeHB, getBlock_writeHB, getBlock_writeHF,
      getBlock_writeHH, getHeader_writeHB, getHeader_writeHF, getHeader_writeHH]
  · rw [if_neg h1] at hstep
    repeat' split at hstep
    all_goals cases hstep
    all_goals simp_all [headHeader_writeHB, headHeader_writeHF, headHeader_writeHH,
      headFast_writeHB, headFast_writeHH, headFast_writeHF, headBlock_writeHH,
      headBlock_writeHF, headBlock_writeHB, getBlock_writeHB, getBlock_writeHF,
      getBlock_writeHH, getHeader_writeHB, getHeader_writeHF, getHeader_writeHH]

theorem rollbackStep_block_untouched (st : ChainState) (hh : Hash) (s1 : ChainState) (cb : Block)
    (hstep : rollbackStep st hh = some s1) (hcb : st.currentBlock = some cb)
    (hne : cb.hash ≠ hh) :
    s1.currentBlock = st.currentBlock ∧ s1.db.headBlock = st.db.headBlock := by
  unfold rollbackStep at hstep
  simp only [bind, Option.bind] at hstep
  by_cases h1 : st.currentHeader.hash = hh
  · rw [if_pos h1] at hstep
    repeat' split at hstep
    all_goals cases hstep
    all_goals simp_all [headHeader_writeHB, headHeader_writeHF, headHeader_writeHH,
      headFast_writeHB, headFast_writeHH, headFast_writeHF, headBlock_writeHH,
      headBlock_writeHF, headBlock_writeHB, getBlock_writeHB, getBlock_writeHF,
      getBlock_writeHH, getHeader_writeHB, getHeader_writeHF, getHeader_writeHH]
  · rw [if_neg h1] at hstep
    repeat' split at hstep
    all_goals cases hstep
    all_goals simp_all [headHeader_writeHB, headHeader_writeHF, headHeader_writeHH,
      headFast_writeHB, headFast_writeHH, headFast_writeHF, headBlock_writeHH,
      headBlock_writeHF, headBlock_writeHB, getBlock_writeHB, getBlock_writeHF,
      getBlock_writeHH, getHeader_writeHB, getHeader_writeHF, getHeader_writeHH]

theorem foldlM_rollback_frame : ∀ (l : List Hash) (st st' : ChainState),
    List.foldlM rollbackStep st l = some st' → SameTables st.db st'.db := by
  intro l
  induction l with
  | nil =>
    intro st st' h
    simp only [List.foldlM_nil] at h
    cases h
    exact sameTables_refl _
  | cons x t ih =>
    intro st st' h
    rw [List.foldlM_cons] at h
    cases hs : rollbackStep st x with
    | none => rw [hs] at h; cases h
    | some mid =>
      rw [hs] at h
      exact sameTables_trans (rollbackStep_frame st x mid hs) (ih mid st' (by simpa using h))

/-- C9: `Rollback` processes hashes in reverse order (it is the composition
of the rollback of the suffix followed by the rollback of the prefix, a
single hash being one `rollbackStep`), moves exactly whichever of the head
header / head fast / head block pointers equals the hash to that pointer's
parent — persisting the moved fast and block pointers — leaves non-matching
pointers alone, and deletes nothing: every data table of the store is
unchanged. -/
theorem C9_Rollback_unelects_only (st : ChainState) (chain : List Hash)
    (st' : ChainState) (h : Rollback st chain = some st') :
    SameTables st.db st'.db ∧
    (∀ c1 c2 : List Hash,
      Rollback st (c1 ++ c2) = (Rollback st c2).bind (fun s => Rollback s c1)) ∧
    (∀ hh, Rollback st [hh] = rollbackStep st hh) ∧
    (∀ hh s1, rollbackStep st hh = some s1 →
      ((st.currentHeader.hash = hh →
          ∃ ph, getHeader st.db st.currentHeader.parentHash = some ph ∧
            s1.currentHeader = ph ∧ s1.db.headHeader = some ph.hash) ∧
       (st.currentHeader.hash ≠ hh →
          s1.currentHeader = st.currentHeader ∧ s1.db.headHeader = st.db.headHeader) ∧
       (∀ fb, st.currentFastBlock = some fb → fb.hash = hh →
          ∃ pb, getBlock st.db fb.parentHash = some pb ∧
            s1.currentFastBlock = some pb ∧ s1.db.headFast = some pb.hash) ∧
       (∀ fb, st.currentFastBlock = some fb → fb.hash ≠ hh →
          s1.currentFastBlock = st.currentFastBlock ∧ s1.db.headFast = st.db.headFast) ∧
       (∀ cb, st.currentBlock = some cb → cb.hash = hh →
          ∃ pb, getBlock st.db cb.parentHash = some pb ∧
            s1.currentBlock = some pb ∧ s1.db.headBlock = some pb.hash) ∧
       (∀ cb, st.currentBlock = some cb → cb.hash ≠ hh →
          s1.currentBlock = st.currentBlock ∧ s1.db.headBlock = st.db.headBlock))) := by
  refine ⟨foldlM_rollback_frame _ st st' h, ?_, ?_, ?_⟩
  · intro c1 c2
    unfold Rollback
    rw [List.reverse_append, List.foldlM_append]
    rfl
  · intro hh
    unfold Rollback
    simp [List.foldlM]
  · intro hh s1 hs
    exact ⟨fun he => rollbackStep_header_moved st hh s1 hs he,
      fun hne => rollbackStep_header_untouched st hh s1 hs hne,
      fun fb hfb he => rollbackStep_fast_moved st hh s1 fb hs hfb he,
      fun fb hfb hne => rollbackStep_fast_untouched st hh s1 fb hs hfb hne,
      fun cb hcb he => rollbackStep_block_moved st hh s1 cb hs hcb he,
      fun cb hcb hne => rollbackStep_block_untouched st hh s1 cb hs hcb hne⟩

/-- A two-block chain (genesis, block #1) with every head at block #1. -/
def rbDB : DB :=
  { baseDB with
    headers := [(1, gHeader), (2, b1Header)]
    bodies := [(1, (⟨[]⟩ : Body)), (2, (⟨[]⟩ : Body))]
    tds := [(1, 10), (2, 20)]
    canonical := [(0, 1), (1, 2)]
    headBlock := some 2
    headHeader := some 2
    headFast := some 2 }

def rbSt : ChainState :=
  { baseSt with
    db := rbDB
    currentBlock := some b1Block
    currentFastBlock := some b1Block
    currentHeader := b1Header }

theorem C9_Rollback_unelects_only_witness :
    ∃ st', Rollback rbSt [b1Block.hash] = some st' ∧
      (SameTables rbSt.db st'.db ∧
       (∀ c1 c2 : List Hash,
         Rollback rbSt (c1 ++ c2) = (Rollback rbSt c2).bind (fun s => Rollback s c1)) ∧
       (∀ hh, Rollback rbSt [hh] = rollbackStep rbSt hh) ∧
       (∀ hh s1, rollbackStep rbSt hh = some s1 →
         ((rbSt.currentHeader.hash = hh →
             ∃ ph, getHeader rbSt.db rbSt.currentHeader.parentHash = some ph ∧
               s1.currentHeader = ph ∧ s1.db.headHeader = some ph.hash) ∧
          (rbSt.currentHeader.hash ≠ hh →
             s1.currentHeader = rbSt.currentHeader ∧ s1.db.headHeader = rbSt.db.headHeader) ∧
          (∀ fb, rbSt.currentFastBlock = some fb → fb.hash = hh →
             ∃ pb, getBlock rbSt.db fb.parentHash = some pb ∧
               s1.currentFastBlock = some pb ∧ s1.db.headFast = some pb.hash) ∧
          (∀ fb, rbSt.currentFastBlock = some fb → fb.hash ≠ hh →
             s1.currentFastBlock = rbSt.currentFastBlock ∧ s1.db.headFast = rbSt.db.headFast) ∧
          (∀ cb, rbSt.currentBlock = some cb → cb.hash = hh →
             ∃ pb, getBlock rbSt.db cb.parentHash = some pb ∧
               s1.currentBlock = some pb ∧ s1.db.headBlock = some pb.hash) ∧
          (∀ cb, rbSt.currentBlock = some cb → cb.hash ≠ hh →
             s1.currentBlock = rbSt.currentBlock ∧ s1.db.headBlock = rbSt.db.headBlock)))) :=
  ⟨_, rfl, C9_Rollback_unelects_only rbSt [b1Block.hash] _ rfl⟩


/-! ## C8: receipt derivation in `InsertReceiptChain` -/

/-- Total number of logs in a list of receipts. -/
def logCount (rs : List Receipt) : Nat := (rs.map (fun r => r.logs.length)).sum

theorem deriveGo_get (num : Nat) (bh : Hash) :
    ∀ (rs : List Receipt) (ts : List Transaction) (j li : Nat) (pc : Option Int)
      (out : List Receipt), deriveGo num bh ts rs j li pc = some out →
      out.length = rs.length ∧
      ∀ k t r, ts.get? k = some t → rs.get? k = some r →
        out.get? k = some (deriveOne num bh t (j + k)
          (li + logCount (List.take k rs))
          (if k = 0 then pc else (rs.get? (k - 1)).map (fun x => x.cumulativeGasUsed)) r) := by
  intro rs
  induction rs with
  | nil =>
    intro ts j li pc out hout
    cases ts with
    | nil =>
      rw [deriveGo] at hout
      cases hout
      exact ⟨rfl, fun k t r _ hr => by simp at hr⟩
    | cons t ts' =>
      rw [deriveGo] at hout
      cases hout
      exact ⟨rfl, fun k t r _ hr => by simp at hr⟩
  | cons r rs' ih =>
    intro ts j li pc out hout
    cases ts with
    | nil => rw [deriveGo] at hout; cases hout
    | cons t ts' =>
      rw [deriveGo] at hout
      cases hrec : deriveGo num bh ts' rs' (j + 1) (li + r.logs.length)
          (some r.cumulativeGasUsed) with
      | none => rw [hrec] at hout; cases hout
      | some out' =>
        rw [hrec] at hout
        simp only [Option.map_some'] at hout
        cases hout
        obtain ⟨hlen, hget⟩ := ih ts' (j + 1) (li + r.logs.length)
          (some r.cumulativeGasUsed) out' hrec
        constructor
        · simp [hlen]
        · intro k tk rk htk hrk
          match k with
          | 0 =>
            simp only [List.get?_cons_zero] at htk hrk
            cases htk
            cases hrk
            simp [logCount, Nat.add_zero]
          | k' + 1 =>
            simp only [List.get?_cons_succ] at htk hrk
            have := hget k' tk rk htk hrk
            rw [List.get?_cons_succ]
            rw [this]
            congr 1
            have h1 : j + 1 + k' = j + (k' + 1) := by omega
            have h2 : li + r.logs.length + logCount (List.take k' rs') =
                li + logCount (List.take (k' + 1) (r :: rs')) := by
              rw [List.take_succ_cons]
              simp [logCount]
              omega
            have h3 : (if k' = 0 then some r.cumulativeGasUsed
                else (rs'.get? (k' - 1)).map (fun x => x.cumulativeGasUsed)) =
                (if k' + 1 = 0 then pc
                else ((r :: rs').get? (k' + 1 - 1)).map (fun x => x.cumulativeGasUsed)) := by
              match k' with
              | 0 => simp
              | k'' + 1 => simp
            rw [h1, h2, h3]

/-- C8: for aligned transactions/receipts, `InsertReceiptChain`'s derivation
gives receipt `j` the hash of transaction `j`, a contract address derived
from sender and nonce exactly when the transaction creates a contract (the
received value otherwise), `GasUsed` as the first cumulative gas for `j = 0`
and the difference of consecutive cumulative values afterwards, and stamps
every log with the block number and hash, the transaction hash and index,
and a log index that counts all logs of the block monotonically from 0. -/
theorem C8_receipt_derivation (b : Block) (rs out : List Receipt)
    (hd : deriveReceipts b rs = some out) :
    out.length = rs.length ∧
    ∀ k t r, b.transactions.get? k = some t → rs.get? k = some r →
      ∃ r', out.get? k = some r' ∧
        r'.txHash = t.hash ∧
        r'.contractAddress = (if MessageCreatesContract t
          then createAddress t.sender t.nonce else r.contractAddress) ∧
        (k = 0 → r'.gasUsed = r.cumulativeGasUsed) ∧
        (∀ k' rp, k = k' + 1 → rs.get? k' = some rp →
          r'.gasUsed = r.cumulativeGasUsed - rp.cumulativeGasUsed) ∧
        r'.logs.length = r.logs.length ∧
        (∀ m lg, r.logs.get? m = some lg →
          r'.logs.get? m = some { lg with
            blockNumber := b.number, blockHash := b.hash,
            txHash := t.hash, txIndex := k, index := logCount (List.take k rs) + m }) := by
  obtain ⟨hlen, hget⟩ := deriveGo_get b.number b.hash rs b.transactions 0 0 none out hd
  refine ⟨hlen, ?_⟩
  intro k t r htk hrk
  refine ⟨_, hget k t r htk hrk, rfl, rfl, ?_, ?_, ?_, ?_⟩
  · intro hk
    subst hk
    simp [deriveOne]
  · intro k' rp hk hrp
    subst hk
    simp only [deriveOne, Nat.add_eq, Nat.succ_ne_zero, if_false, Nat.add_sub_cancel]
    rw [hrp]
    rfl
  · simp [deriveOne]
  · intro m lg hlg
    simp only [deriveOne]
    rw [List.get?_map, List.get?_enum, hlg]
    simp [Nat.zero_add]

/-- Two transactions: a transfer and a contract creation; two receipts with
one and two logs. -/
def tx0 : Transaction := ⟨70, 5, some 9, 40⟩

def tx1 : Transaction := ⟨71, 6, none, 41⟩

def rcBlock : Block := ⟨⟨2, 1, 1, 10, 10, 501⟩, ⟨[tx0, tx1]⟩⟩

def rc0 : Receipt := ⟨21000, 0, 0, 0, [⟨100, 0, 0, 0, 0, 0⟩]⟩

def rc1 : Receipt := ⟨74000, 0, 0, 0, [⟨101, 0, 0, 0, 0, 0⟩, ⟨102, 0, 0, 0, 0, 0⟩]⟩

theorem C8_receipt_derivation_witness :
    ∃ out, deriveReceipts rcBlock [rc0, rc1] = some out ∧
      (out.length = 2 ∧
       ∀ k t r, rcBlock.transactions.get? k = some t → [rc0, rc1].get? k = some r →
         ∃ r', out.get? k = some r' ∧
           r'.txHash = t.hash ∧
           r'.contractAddress = (if MessageCreatesContract t
             then createAddress t.sender t.nonce else r.contractAddress) ∧
           (k = 0 → r'.gasUsed = r.cumulativeGasUsed) ∧
           (∀ k' rp, k = k' + 1 → [rc0, rc1].get? k' = some rp →
             r'.gasUsed = r.cumulativeGasUsed - rp.cumulativeGasUsed) ∧
           r'.logs.length = r.logs.length ∧
           (∀ m lg, r.logs.get? m = some lg →
             r'.logs.get? m = some { lg with
               blockNumber := rcBlock.number,
               blockHash := rcBlock.hash, txHash := t.hash, txIndex := k,
               index := logCount (List.take k [rc0, rc1]) + m })) :=
  ⟨_, rfl, C8_receipt_derivation rcBlock [rc0, rc1] _ rfl⟩

/-! ## C4: reorg insertion pass -/

theorem alookup_isSome_append_right {β : Type} (l₁ l₂ : List (Nat × β)) (k : Nat)
    (h : (alookup l₂ k).isSome) : (alookup (l₁ ++ l₂) k).isSome := by
  induction l₁ with
  | nil => exact h
  | cons p t ih =>
    obtain ⟨k', v'⟩ := p
    rw [List.cons_append, alookup]
    by_cases hk : k' = k
    · simp [hk]
    · rw [if_neg hk]
      exact ih

theorem alookup_isSome_of_mem_key {β : Type} :
    ∀ (l : List (Nat × β)) (k : Nat), (∃ p ∈ l, p.1 = k) → (alookup l k).isSome := by
  intro l
  induction l with
  | nil => intro k h; simp at h
  | cons p t ih =>
    intro k h
    obtain ⟨q, hq, hqk⟩ := h
    obtain ⟨k', v'⟩ := p
    rw [alookup]
    by_cases hk : k' = k
    · simp [hk]
    · rw [if_neg hk]
      rcases List.mem_cons.mp hq with hq | hq
      · exfalso
        apply hk
        rw [hq] at hqk
        exact hqk
      · exact ih k ⟨q, hq, hqk⟩

/-- What one pass of the reorg insertion loop does to the database. -/
theorem reorgInsertOne_db (st : ChainState) (x : Block) :
    (reorgInsertOne st x).db.canonical = (x.number, x.hash) :: st.db.canonical ∧
    (reorgInsertOne st x).db.mipmap = x.number :: st.db.mipmap ∧
    (reorgInsertOne st x).db.txLookup =
      (x.transactions.enum.map (fun p => (p.2.hash, x.hash, x.number, p.1))) ++ st.db.txLookup ∧
    (reorgInsertOne st x).db.receiptLookup =
      ((getBlockReceipts st.db x.hash).map (fun r => (r.txHash, r))) ++ st.db.receiptLookup ∧
    (reorgInsertOne st x).db.blockReceipts = st.db.blockReceipts ∧
    (reorgInsertOne st x).currentBlock = some x := by
  unfold reorgInsertOne insert
  by_cases h : getCanonicalHash st.db x.number = some x.hash <;>
    simp [h, writeTransactions, writeReceipts, writeMipmapBloom, writeCanonicalHash,
      writeHeadBlockHash, writeHeadHeaderHash, writeHeadFastBlockHash, getBlockReceipts]

theorem foldRI_blockReceipts : ∀ (l : List Block) (st : ChainState),
    (l.foldl reorgInsertOne st).db.blockReceipts = st.db.blockReceipts := by
  intro l
  induction l with
  | nil => intro st; rfl
  | cons x t ih =>
    intro st
    rw [List.foldl_cons, ih]
    exact (reorgInsertOne_db st x).2.2.2.2.1

theorem foldRI_currentBlock : ∀ (l : List Block) (st : ChainState),
    (l.foldl reorgInsertOne st).currentBlock =
      (match l.getLast? with
       | none => st.currentBlock
       | some b => some b) := by
  intro l
  induction l with
  | nil => intro st; rfl
  | cons x t ih =>
    intro st
    rw [List.foldl_cons, ih]
    cases t with
    | nil => exact (reorgInsertOne_db st x).2.2.2.2.2
    | cons y u =>
      cases hl : (y :: u).getLast? with
      | none => rw [List.getLast?_eq_none_iff] at hl; cases hl
      | some b => rw [List.getLast?_cons_cons, hl]

theorem foldRI_canonical_stable : ∀ (l : List Block) (st : ChainState) (n : Nat),
    n ∉ l.map Block.number →
    getCanonicalHash (l.foldl reorgInsertOne st).db n = getCanonicalHash st.db n := by
  intro l
  induction l with
  | nil => intro st n _; rfl
  | cons x t ih =>
    intro st n hn
    rw [List.map_cons, List.mem_cons] at hn
    push_neg at hn
    rw [List.foldl_cons, ih (reorgInsertOne st x) n hn.2]
    unfold getCanonicalHash
    rw [(reorgInsertOne_db st x).1, alookup]
    rw [if_neg (fun he => hn.1 he.symm)]

theorem foldRI_mipmap_mono : ∀ (l : List Block) (st : ChainState) (n : Nat),
    n ∈ st.db.mipmap → n ∈ (l.foldl reorgInsertOne st).db.mipmap := by
  intro l
  induction l with
  | nil => intro st n h; exact h
  | cons x t ih =>
    intro st n h
    rw [List.foldl_cons]
    apply ih
    rw [(reorgInsertOne_db st x).2.1]
    exact List.mem_cons_of_mem _ h

theorem foldRI_txLookup_mono : ∀ (l : List Block) (st : ChainState) (k : Nat),
    (alookup st.db.txLookup k).isSome →
    (alookup (l.foldl reorgInsertOne st).db.txLookup k).isSome := by
  intro l
  induction l with
  | nil => intro st k h; exact h
  | cons x t ih =>
    intro st k h
    rw [List.foldl_cons]
    apply ih
    rw [(reorgInsertOne_db st x).2.2.1]
    exact alookup_isSome_append_right _ _ _ h

theorem foldRI_receiptLookup_mono : ∀ (l : List Block) (st : ChainState) (k : Nat),
    (alookup st.db.receiptLookup k).isSome →
    (alookup (l.foldl reorgInsertOne st).db.receiptLookup k).isSome := by
  intro l
  induction l with
  | nil => intro st k h; exact h
  | cons x t ih =>
    intro st k h
    rw [List.foldl_cons]
    apply ih
    rw [(reorgInsertOne_db st x).2.2.2.1]
    exact alookup_isSome_append_right _ _ _ h

theorem foldRI_canonical_mem : ∀ (l : List Block) (st : ChainState),
    (l.map Block.number).Nodup →
    ∀ b ∈ l, getCanonicalHash (l.foldl reorgInsertOne st).db b.number = some b.hash := by
  intro l
  induction l with
  | nil => intro st _ b hb; simp at hb
  | cons x t ih =>
    intro st hnd b hb
    rw [List.map_cons, List.nodup_cons] at hnd
    rw [List.foldl_cons]
    rcases List.mem_cons.mp hb with hb | hb
    · subst hb
      rw [foldRI_canonical_stable t _ _ hnd.1]
      unfold getCanonicalHash
      rw [(reorgInsertOne_db st b).1, alookup, if_pos rfl]
    · exact ih _ hnd.2 b hb

theorem foldRI_mipmap_mem : ∀ (l : List Block) (st : ChainState),
    ∀ b ∈ l, b.number ∈ (l.foldl reorgInsertOne st).db.mipmap := by
  intro l
  induction l with
  | nil => intro st b hb; simp at hb
  | cons x t ih =>
    intro st b hb
    rw [List.foldl_cons]
    rcases List.mem_cons.mp hb with hb | hb
    · subst hb
      apply foldRI_mipmap_mono
      rw [(reorgInsertOne_db st b).2.1]
      exact List.mem_cons_self _ _
    · exact ih _ b hb

theorem foldRI_txLookup_mem : ∀ (l : List Block) (st : ChainState),
    ∀ b ∈ l, ∀ t ∈ b.transactions,
      (alookup (l.foldl reorgInsertOne st).db.txLookup t.hash).isSome := by
  intro l
  induction l with
  | nil => intro st b hb; simp at hb
  | cons x u ih =>
    intro st b hb t ht
    rw [List.foldl_cons]
    rcases List.mem_cons.mp hb with hb | hb
    · subst hb
      apply foldRI_txLookup_mono
      rw [(reorgInsertOne_db st b).2.2.1]
      apply alookup_isSome_append_left
      apply alookup_isSome_of_mem_key
      obtain ⟨i, hi⟩ := List.get_of_mem ht
      have hgi : b.transactions.get? i.1 = some t := by
        rw [List.get?_eq_get i.isLt]
        rw [← hi]
      refine ⟨(t.hash, b.hash, b.number, i.1), ?_, rfl⟩
      apply List.mem_map.mpr
      refine ⟨(i.1, t), ?_, rfl⟩
      rw [List.mem_iff_get?]
      refine ⟨i.1, ?_⟩
      rw [List.get?_enum, hgi]
      rfl
    · exact ih _ b hb t ht

theorem foldRI_receiptLookup_mem : ∀ (l : List Block) (st : ChainState),
    ∀ b ∈ l, ∀ r ∈ getBlockReceipts st.db b.hash,
      (alookup (l.foldl reorgInsertOne st).db.receiptLookup r.txHash).isSome := by
  intro l
  induction l with
  | nil => intro st b hb; simp at hb
  | cons x u ih =>
    intro st b hb r hr
    rw [List.foldl_cons]
    rcases List.mem_cons.mp hb with hb | hb
    · subst hb
      apply foldRI_receiptLookup_mono
      rw [(reorgInsertOne_db st b).2.2.2.1]
      apply alookup_isSome_append_left
      apply alookup_isSome_of_mem_key
      exact ⟨(r.txHash, r), List.mem_map.mpr ⟨r, hr, rfl⟩, rfl⟩
    · apply ih _ b hb r
      have : getBlockReceipts (reorgInsertOne st x).db b.hash =
          getBlockReceipts st.db b.hash := by
        unfold getBlockReceipts
        rw [(reorgInsertOne_db st x).2.2.2.2.1]
      rw [this]
      exact hr

theorem walkBack_head (db : DB) : ∀ (fuel : Nat) (target : Nat) (b e : Block)
    (l : List Block), walkBack db fuel target b = some (e, l) →
    (l = [] ∧ e = b) ∨ l.head? = some b := by
  intro fuel target b e l h
  match fuel with
  | 0 => rw [walkBack] at h; cases h
  | fuel + 1 =>
    rw [walkBack] at h
    by_cases hn : b.number = target
    · rw [if_pos hn] at h
      cases h
      exact Or.inl ⟨rfl, rfl⟩
    · rw [if_neg hn] at h
      cases hp : getBlock db b.parentHash with
      | none => rw [hp] at h; cases h
      | some p =>
        rw [hp] at h
        simp only at h
        cases hw : walkBack db fuel target p with
        | none => rw [hw] at h; cases h
        | some q =>
          rw [hw] at h
          simp only [Option.map_some'] at h
          cases h
          exact Or.inr rfl

theorem lockstep_new_head (db : DB) : ∀ (fuel : Nat) (a b c : Block)
    (x y : List Block), lockstep db fuel a b = some (c, x, y) →
    y = [] ∨ y.head? = some b := by
  intro fuel a b c x y h
  match fuel with
  | 0 => rw [lockstep] at h; cases h
  | fuel + 1 =>
    rw [lockstep] at h
    by_cases he : a.hash = b.hash
    · rw [if_pos he] at h
      cases h
      exact Or.inl rfl
    · rw [if_neg he] at h
      cases hpa : getBlock db a.parentHash with
      | none => rw [hpa] at h; cases h
      | some pa =>
        cases hpb : getBlock db b.parentHash with
        | none => rw [hpa, hpb] at h; cases h
        | some pb =>
          rw [hpa, hpb] at h
          simp only at h
          cases hl : lockstep db fuel pa pb with
          | none => rw [hl] at h; cases h
          | some q =>
            rw [hl] at h
            simp only [Option.map_some'] at h
            cases h
            exact Or.inr rfl

theorem reorgChains_new_head (db : DB) (fuel : Nat) (oldB newB c : Block)
    (oc nc : List Block) (h : reorgChains db fuel oldB newB = some (c, oc, nc)) :
    nc = [] ∨ nc.head? = some newB := by
  unfold reorgChains at h
  simp only [bind, Option.bind] at h
  by_cases hlt : newB.number < oldB.number
  · rw [if_pos hlt] at h
    cases hw : walkBack db fuel newB.number oldB with
    | none => rw [hw] at h; cases h
    | some q =>
      obtain ⟨ob, opre⟩ := q
      rw [hw] at h
      simp only [Option.map_some'] at h
      cases hl : lockstep db fuel ob newB with
      | none => rw [hl] at h; cases h
      | some t =>
        obtain ⟨cc, om, nm⟩ := t
        rw [hl] at h
        simp only [pure, Option.some.injEq, Prod.mk.injEq] at h
        obtain ⟨-, -, hnc⟩ := h
        rw [← hnc]
        rcases lockstep_new_head db fuel ob newB cc om nm hl with hnm | hnm
        · rw [hnm]
          exact Or.inl rfl
        · right
          simpa using hnm
  · rw [if_neg hlt] at h
    cases hw : walkBack db fuel oldB.number newB with
    | none => rw [hw] at h; cases h
    | some q =>
      obtain ⟨nb, npre⟩ := q
      rw [hw] at h
      simp only [Option.map_some'] at h
      cases hl : lockstep db fuel oldB nb with
      | none => rw [hl] at h; cases h
      | some t =>
        obtain ⟨cc, om, nm⟩ := t
        rw [hl] at h
        simp only [pure, Option.some.injEq, Prod.mk.injEq] at h
        obtain ⟨-, -, hnc⟩ := h
        rw [← hnc]
        rcases walkBack_head db fuel oldB.number newB nb npre hw with ⟨hpre, hnb⟩ | hpre
        · rw [hpre]
          rw [hnb] at hl
          rcases lockstep_new_head db fuel oldB newB cc om nm hl with hnm | hnm
          · rw [hnm]
            exact Or.inl rfl
          · right
            simpa using hnm
        · right
          rw [List.head?_append]
          rw [hpre]
          rfl

theorem delFold_canonical : ∀ (diff : List Transaction) (db : DB),
    (diff.foldl delTx db).canonical = db.canonical := by
  intro diff
  induction diff with
  | nil => intro db; rfl
  | cons d t ih => intro db; rw [List.foldl_cons, ih]; rfl

theorem delFold_mipmap : ∀ (diff : List Transaction) (db : DB),
    (diff.foldl delTx db).mipmap = db.mipmap := by
  intro diff
  induction diff with
  | nil => intro db; rfl
  | cons d t ih => intro db; rw [List.foldl_cons, ih]; rfl

theorem delFold_txLookup : ∀ (diff : List Transaction) (db : DB) (k : Nat),
    (∀ d ∈ diff, d.hash ≠ k) →
    alookup (diff.foldl delTx db).txLookup k = alookup db.txLookup k := by
  intro diff
  induction diff with
  | nil => intro db k _; rfl
  | cons d t ih =>
    intro db k hk
    rw [List.foldl_cons, ih _ _ (fun d' hd' => hk d' (List.mem_cons_of_mem _ hd'))]
    show alookup (List.filter _ _) k = _
    rw [alookup_filter_key (fun a => decide (a ≠ d.hash))]
    rw [if_pos (by simp only [decide_eq_true_eq]; exact fun he => hk d (List.mem_cons_self _ _) he.symm)]
    rfl

theorem delFold_receiptLookup : ∀ (diff : List Transaction) (db : DB) (k : Nat),
    (∀ d ∈ diff, d.hash ≠ k) →
    alookup (diff.foldl delTx db).receiptLookup k = alookup db.receiptLookup k := by
  intro diff
  induction diff with
  | nil => intro db k _; rfl
  | cons d t ih =>
    intro db k hk
    rw [List.foldl_cons, ih _ _ (fun d' hd' => hk d' (List.mem_cons_of_mem _ hd'))]
    show alookup (List.filter _ _) k = _
    rw [alookup_filter_key (fun a => decide (a ≠ d.hash))]
    rw [if_pos (by simp only [decide_eq_true_eq]; exact fun he => hk d (List.mem_cons_self _ _) he.symm)]

/-- C4 (amended): during a reorg every block of the new branch strictly
above the common ancestor is inserted into the canonical index with its
per-transaction lookup index, its stored receipts and its bloom mip-map
bucket written; but the insertions run highest-FIRST (the new tip is the
head of `newChain` and is inserted first), so after `reorg` returns the
head pointers sit at the lowest inserted block — the caller (`WriteBlock`)
restores them by inserting the new head block itself afterwards. -/
theorem C4_reorg_amended (st : ChainState) (fuel : Nat) (oldB newB c : Block)
    (oldChain newChain : List Block) (st' : ChainState)
    (hch : reorgChains st.db fuel oldB newB = some (c, oldChain, newChain))
    (hre : reorg st fuel oldB newB = some st')
    (hnodup : (newChain.map Block.number).Nodup)
    (hrcpt : ∀ b ∈ newChain, ∀ r ∈ getBlockReceipts st.db b.hash,
        ∃ t ∈ b.transactions, r.txHash = t.hash) :
    (∀ b ∈ newChain,
       getCanonicalHash st'.db b.number = some b.hash ∧
       b.number ∈ st'.db.mipmap ∧
       (∀ t ∈ b.transactions, (alookup st'.db.txLookup t.hash).isSome) ∧
       (∀ r ∈ getBlockReceipts st.db b.hash,
          (alookup st'.db.receiptLookup r.txHash).isSome)) ∧
    (newChain = [] → st'.currentBlock = st.currentBlock) ∧
    (newChain ≠ [] →
       newChain.head? = some newB ∧ st'.currentBlock = newChain.getLast?) := by
  unfold reorg at hre
  rw [hch] at hre
  simp only [bind, Option.bind, pure, Option.some.injEq] at hre
  have hdiffkey : ∀ (k : Nat), (∃ b ∈ newChain, ∃ t ∈ b.transactions, t.hash = k) →
      ∀ d ∈ (oldChain.flatMap Block.transactions).filter
        (fun t => ¬ (newChain.flatMap Block.transactions).any (fun t' => t'.hash = t.hash)),
      d.hash ≠ k := by
    intro k hk d hd
    obtain ⟨b, hb, t, ht, htk⟩ := hk
    have hmem := List.mem_filter.mp hd
    have hadd : t ∈ newChain.flatMap Block.transactions :=
      List.mem_flatMap.mpr ⟨b, hb, ht⟩
    intro hdk
    have := hmem.2
    simp only [decide_eq_true_eq] at this
    apply this
    apply List.any_eq_true.mpr
    refine ⟨t, hadd, ?_⟩
    simp [htk, hdk]
  subst hre
  refine ⟨?_, ?_, ?_⟩
  · intro b hb
    refine ⟨?_, ?_, ?_, ?_⟩
    · show getCanonicalHash (List.foldl delTx _ _) b.number = some b.hash
      unfold getCanonicalHash
      rw [delFold_canonical]
      exact foldRI_canonical_mem newChain st hnodup b hb
    · show b.number ∈ (List.foldl delTx _ _).mipmap
      rw [delFold_mipmap]
      exact foldRI_mipmap_mem newChain st b hb
    · intro t ht
      show (alookup (List.foldl delTx _ _).txLookup t.hash).isSome
      rw [delFold_txLookup _ _ _ (hdiffkey t.hash ⟨b, hb, t, ht, rfl⟩)]
      exact foldRI_txLookup_mem newChain st b hb t ht
    · intro r hr
      obtain ⟨t, ht, hrt⟩ := hrcpt b hb r hr
      show (alookup (List.foldl delTx _ _).receiptLookup r.txHash).isSome
      rw [delFold_receiptLookup _ _ _ (hdiffkey r.txHash ⟨b, hb, t, ht, hrt.symm⟩)]
      exact foldRI_receiptLookup_mem newChain st b hb r hr
  · intro hempty
    subst hempty
    rfl
  · intro hne
    constructor
    · rcases reorgChains_new_head st.db fuel oldB newB c oldChain newChain hch with he | hh
      · exact absurd he hne
      · exact hh
    · show (newChain.foldl reorgInsertOne st).currentBlock = newChain.getLast?
      rw [foldRI_currentBlock]
      cases hl : newChain.getLast? with
      | none =>
        rw [List.getLast?_eq_none_iff] at hl
        exact absurd hl hne
      | some lb => rfl

/-- Concrete reorg scenario: canonical chain genesis → `reA1`; heavier side
branch genesis → `reB1` → `reB2`. -/
def reA1 : Block := ⟨⟨10, 1, 1, 10, 10, 502⟩, ⟨[]⟩⟩

def reB1 : Block := ⟨⟨20, 1, 1, 12, 11, 503⟩, ⟨[]⟩⟩

def reB2 : Block := ⟨⟨21, 20, 2, 12, 21, 504⟩, ⟨[]⟩⟩

def reDB : DB :=
  { baseDB with
    headers := [(1, gHeader), (10, reA1.header), (20, reB1.header), (21, reB2.header)]
    bodies := [(1, (⟨[]⟩ : Body)), (10, (⟨[]⟩ : Body)), (20, (⟨[]⟩ : Body)),
      (21, (⟨[]⟩ : Body))]
    tds := [(1, 10), (10, 20), (20, 22), (21, 34)]
    canonical := [(0, 1), (1, 10)]
    headBlock := some 10
    headHeader := some 10
    headFast := some 10 }

def reSt : ChainState :=
  { baseSt with
    db := reDB
    currentBlock := some reA1
    currentFastBlock := some reA1
    currentHeader := reA1.header }

/-- C4, as stated, is false: reorging from `reA1` to `reB2` walks the new
branch `[reB2, reB1]` highest-first and inserts in that order, so when
`reorg` completes the head pointers name `reB1` (height 1), not the new tip
`reB2` (height 2) — the insertions are not ordered highest-last and the head
pointers are not yet correct. -/
theorem C4_reorg_counterexample :
    ∃ st', reorg reSt 10 reA1 reB2 = some st' ∧
      reorgChains reSt.db 10 reA1 reB2 = some (gBlock, [reA1], [reB2, reB1]) ∧
      getCanonicalHash st'.db 2 = some reB2.hash ∧
      getCanonicalHash st'.db 1 = some reB1.hash ∧
      st'.currentBlock = some reB1 ∧
      st'.db.headBlock = some reB1.hash ∧
      reB1.hash ≠ reB2.hash ∧ reB1.number < reB2.number :=
  ⟨_, rfl, by decide, by decide, by decide, rfl, rfl, by decide, by decide⟩

theorem C4_reorg_amended_witness :
    ∃ st', reorgChains reSt.db 10 reA1 reB2 = some (gBlock, [reA1], [reB2, reB1]) ∧
      reorg reSt 10 reA1 reB2 = some st' ∧
      (([reB2, reB1].map Block.number).Nodup ∧
       (∀ b ∈ [reB2, reB1], ∀ r ∈ getBlockReceipts reSt.db b.hash,
          ∃ t ∈ b.transactions, r.txHash = t.hash)) ∧
      ((∀ b ∈ [reB2, reB1],
         getCanonicalHash st'.db b.number = some b.hash ∧
         b.number ∈ st'.db.mipmap ∧
         (∀ t ∈ b.transactions, (alookup st'.db.txLookup t.hash).isSome) ∧
         (∀ r ∈ getBlockReceipts reSt.db b.hash,
            (alookup st'.db.receiptLookup r.txHash).isSome)) ∧
       (([reB2, reB1] : List Block) = [] → st'.currentBlock = reSt.currentBlock) ∧
       (([reB2, reB1] : List Block) ≠ [] →
          ([reB2, reB1] : List Block).head? = some reB2 ∧
          st'.currentBlock = ([reB2, reB1] : List Block).getLast?)) := by
  refine ⟨_, rfl, rfl, ⟨by decide, ?_⟩, ?_⟩
  · intro b hb r hr
    fin_cases hb <;> simp [getBlockReceipts, reSt, reDB, baseDB, alookup] at hr
  · refine C4_reorg_amended reSt 10 reA1 reB2 gBlock [reA1] [reB2, reB1] _ rfl rfl
      (by decide) ?_
    intro b hb r hr
    fin_cases hb <;> simp [getBlockReceipts, reSt, reDB, baseDB, alookup] at hr

/-! ## C3: the forward-rewind heuristic of `loadLastState` -/

/-- Descending association list `[(n-1, f (n-1)), …, (0, f 0)]` (built with
a bare recursor so that large instances evaluate without deep call stacks). -/
def descPairs (f : Nat → Hash) (n : Nat) : List (Nat × Hash) :=
  Nat.rec [] (fun m acc => (m, f m) :: acc) n

theorem descPairs_succ (f : Nat → Hash) (m : Nat) :
    descPairs f (m + 1) = (m, f m) :: descPairs f m := rfl

theorem alookup_descPairs (f : Nat → Hash) :
    ∀ (n m : Nat), m < n → alookup (descPairs f n) m = some (f m) := by
  intro n
  induction n with
  | zero => intro m hm; omega
  | succ k ih =>
    intro m hm
    rw [descPairs_succ, alookup]
    by_cases hk : k = m
    · rw [if_pos hk, hk]
    · rw [if_neg hk]
      exact ih m (by omega)

/-- Height-`m` block of the recovery scenario: hash `m + 1`, parent the
hash of height `m - 1`, state root `600 + m`. -/
def c3Header (m : Nat) : Header := ⟨m + 1, m, m, 10, 10 * m, 600 + m⟩

def c3Block (m : Nat) : Block := ⟨c3Header m, ⟨[]⟩⟩

/-- Canonical hashes stored for every height up to 4096, but headers and
bodies present only for genesis and heights 1, 2048 and 2049; the genesis
state is resolvable.  Head pointers intentionally left out (the claim's
scenario). -/
def c3dbA : DB :=
  { headers := [(1, c3Header 0), (2, c3Header 1), (2049, c3Header 2048),
      (2050, c3Header 2049)]
    bodies := [(1, (⟨[]⟩ : Body)), (2, (⟨[]⟩ : Body)), (2049, (⟨[]⟩ : Body)),
      (2050, (⟨[]⟩ : Body))]
    blockReceipts := []
    receiptLookup := []
    txLookup := []
    tds := []
    canonical := descPairs (fun m => m + 1) 4097
    mipmap := []
    headBlock := none
    headHeader := none
    headFast := none
    stateRoots := [600] }

/-- The chain state `NewBlockChain` builds just before `loadLastState`. -/
def c3St0 : ChainState :=
  { db := c3dbA
    currentBlock := none
    currentFastBlock := none
    currentHeader := c3Header 0
    genesisBlock := c3Block 0
    futureBlocks := []
    procInterrupt := false }

theorem c3_presence : ∀ m : Nat, m ≤ 4096 → (alookup c3dbA.canonical m).isSome := by
  intro m hm
  show (alookup (descPairs (fun m => m + 1) 4097) m).isSome
  rw [alookup_descPairs (fun m => m + 1) 4097 m (by omega)]
  rfl

theorem alookup_descPairs_ge (f : Nat → Hash) :
    ∀ (n m : Nat), n ≤ m → alookup (descPairs f n) m = none := by
  intro n
  induction n with
  | zero => intro m _; rfl
  | succ k ih =>
    intro m hm
    rw [descPairs_succ, alookup]
    rw [if_neg (by omega)]
    exact ih m (by omega)

theorem filter_le_descPairs (f : Nat → Hash) (k : Nat) :
    ∀ n, (descPairs f n).filter (fun p => p.1 ≤ k) = descPairs f (min n (k + 1)) := by
  intro n
  induction n with
  | zero => simp [descPairs]
  | succ m ih =>
    rw [descPairs_succ]
    by_cases hm : m ≤ k
    · rw [List.filter_cons_of_pos (by simpa using hm)]
      rw [ih]
      have h1 : min (m + 1) (k + 1) = m + 1 := by omega
      have h2 : min m (k + 1) = m := by omega
      rw [h1, h2, descPairs_succ]
    · rw [List.filter_cons_of_neg (by simpa using hm)]
      rw [ih]
      have h1 : min m (k + 1) = min (m + 1) (k + 1) := by omega
      rw [h1]

theorem doomed_contains (k h : Nat) :
    ∀ n, (((descPairs (fun m => m + 1) n).filter (fun p => k < p.1)).map (·.2)).contains h =
      decide (k + 1 < h ∧ h ≤ n) := by
  intro n
  induction n with
  | zero =>
    rw [show descPairs (fun m => m + 1) 0 = [] from rfl]
    simp only [List.filter_nil, List.map_nil, List.contains_nil]
    rw [eq_comm, decide_eq_false_iff_not]
    omega
  | succ m ih =>
    rw [descPairs_succ]
    by_cases hm : k < m
    · rw [List.filter_cons_of_pos (by simpa using hm)]
      rw [List.map_cons, List.contains_cons, ih]
      by_cases he : h = m + 1
      · subst he
        have hcond : k + 1 < m + 1 ∧ m + 1 ≤ m + 1 := ⟨by omega, le_refl _⟩
        simp [hcond]
      · have hne : (h == m + 1) = false := by simp [he]
        rw [hne, Bool.false_or]
        simp only [decide_eq_decide]
        constructor
        · rintro ⟨a, b⟩
          exact ⟨a, by omega⟩
        · rintro ⟨a, b⟩
          refine ⟨a, ?_⟩
          rcases Nat.lt_or_ge h (m + 1) with hlt | hge
          · omega
          · omega
    · rw [List.filter_cons_of_neg (by simpa using hm)]
      rw [ih]
      simp only [decide_eq_decide]
      constructor
      · rintro ⟨a, b⟩
        exact ⟨a, by omega⟩
      · rintro ⟨a, b⟩
        exact ⟨a, by omega⟩


/-- The chain state after `SetHead(0)`'s core in the recovery scenario:
everything above genesis truncated. -/
def c3SmallA : ChainState :=
  { db :=
      { headers := [(1, c3Header 0)]
        bodies := [(1, (⟨[]⟩ : Body))]
        blockReceipts := []
        receiptLookup := []
        txLookup := []
        tds := []
        canonical := [(0, 1)]
        mipmap := []
        headBlock := some 1
        headHeader := some 1
        headFast := some 1
        stateRoots := [600] }
    currentBlock := some (c3Block 0)
    currentFastBlock := some (c3Block 0)
    currentHeader := c3Header 0
    genesisBlock := c3Block 0
    futureBlocks := []
    procInterrupt := false }

/-- The store after `hcTrim` at target height 0 in the recovery scenario. -/
def c3TrimDB : DB :=
  { headers := [(1, c3Header 0)]
    bodies := [(1, (⟨[]⟩ : Body))]
    blockReceipts := []
    receiptLookup := []
    txLookup := []
    tds := []
    canonical := [(0, 1)]
    mipmap := []
    headBlock := none
    headHeader := none
    headFast := none
    stateRoots := [600] }

theorem hcDoomed_c3A (h : Nat) :
    (hcDoomed c3St0.db 0).contains h = decide (0 + 1 < h ∧ h ≤ 4097) := by
  unfold hcDoomed
  rw [show c3St0.db.canonical = descPairs (fun m => m + 1) 4097 from rfl]
  exact doomed_contains 0 h 4097

theorem hcTrim_c3A : hcTrim c3St0.db 0 = c3TrimDB := by
  unfold hcTrim
  rw [show c3St0.db.canonical = descPairs (fun m => m + 1) 4097 from rfl]
  rw [filter_le_descPairs]
  rw [show c3St0.db.headers = [(1, c3Header 0), (2, c3Header 1), (2049, c3Header 2048),
      (2050, c3Header 2049)] from rfl]
  rw [show c3St0.db.bodies = [(1, (⟨[]⟩ : Body)), (2, (⟨[]⟩ : Body)),
      (2049, (⟨[]⟩ : Body)), (2050, (⟨[]⟩ : Body))] from rfl]
  rw [show c3St0.db.tds = ([] : List (Hash × Int)) from rfl]
  simp only [List.filter_cons, List.filter_nil, hcDoomed_c3A]
  decide

theorem setHeadCore_c3A : setHeadCore c3St0 0 = c3SmallA := by
  unfold setHeadCore hcSetHead
  rw [hcTrim_c3A]
  decide

theorem loadLast_c3SmallA : loadLastState exEnv 2 c3SmallA = some c3SmallA := by
  decide

theorem loadLast_c3A :
    loadLastState exEnv 3 c3St0 = some (finishReset (c3Block 0) c3SmallA) := by
  show loadLastState exEnv (2 + 1) c3St0 = _
  rw [loadLastState]
  rw [show c3St0.db.headBlock = none from rfl]
  rw [setHeadCore_c3A, loadLast_c3SmallA]
  rfl

theorem getBlockByNumber_c3A : getBlockByNumber c3dbA 0 = some (c3Block 0) := by
  unfold getBlockByNumber getCanonicalHash
  rw [show c3dbA.canonical = descPairs (fun m => m + 1) 4097 from rfl]
  rw [alookup_descPairs (fun m => m + 1) 4097 0 (by omega)]
  rfl

/-- C3, as stated, is false at its own example: with head pointers absent
but canonical entries present up to height 4096 (and a healthy block at
2049), startup (`NewBlockChain` → `loadLastState`) resets the chain to
genesis — the head block ends at height 0, not at any healthy later block —
because an absent head-block pointer triggers `Reset` before the forward
scan is consulted. -/
theorem C3_forward_scan_counterexample :
    c3dbA.headBlock = none ∧ c3dbA.headHeader = none ∧ c3dbA.headFast = none ∧
    (∀ m : Nat, m ≤ 4096 → (alookup c3dbA.canonical m).isSome) ∧
    blockUnhealthy exEnv c3St0 (c3Block 2049) = false ∧
    (c3Block 2049).number = 2049 ∧
    ∃ st, (NewBlockChain exEnv 3 c3dbA false).1 = .ok st ∧
      st.currentBlock = some (c3Block 0) ∧ (c3Block 0).number = 0 := by
  refine ⟨rfl, rfl, rfl, c3_presence, by decide, rfl, ?_⟩
  refine ⟨finishReset (c3Block 0) c3SmallA, ?_, rfl, rfl⟩
  have hst : loadLastState exEnv 3
      { db := c3dbA
        currentBlock := none
        currentFastBlock := none
        currentHeader := (c3Block 0).header
        genesisBlock := c3Block 0
        futureBlocks := []
        procInterrupt := false } = some (finishReset (c3Block 0) c3SmallA) := loadLast_c3A
  unfold NewBlockChain
  rw [getBlockByNumber_c3A]
  simp only [hst]

/-- The same store with the three head pointers present, all at the genesis
hash. -/
def c3dbB : DB :=
  { c3dbA with
    headBlock := some 1
    headHeader := some 1
    headFast := some 1 }

/-- The chain state of the first `loadLastState` pass at the point where the
forward scan is consulted: heads resolved, all three at genesis. -/
def c3StB : ChainState :=
  { db := c3dbB
    currentBlock := some (c3Block 0)
    currentFastBlock := some (c3Block 0)
    currentHeader := c3Header 0
    genesisBlock := c3Block 0
    futureBlocks := []
    procInterrupt := false }

theorem getBBN_c3B_0 : getBlockByNumber c3dbB 0 = some (c3Block 0) := by
  unfold getBlockByNumber getCanonicalHash
  rw [show c3dbB.canonical = descPairs (fun m => m + 1) 4097 from rfl]
  rw [alookup_descPairs (fun m => m + 1) 4097 0 (by omega)]
  rfl

theorem getBBN_c3B_1 : getBlockByNumber c3dbB 1 = some (c3Block 1) := by
  unfold getBlockByNumber getCanonicalHash
  rw [show c3dbB.canonical = descPairs (fun m => m + 1) 4097 from rfl]
  rw [alookup_descPairs (fun m => m + 1) 4097 1 (by omega)]
  rfl

theorem getBBN_c3B_2049 : getBlockByNumber c3dbB 2049 = some (c3Block 2049) := by
  unfold getBlockByNumber getCanonicalHash
  rw [show c3dbB.canonical = descPairs (fun m => m + 1) 4097 from rfl]
  rw [alookup_descPairs (fun m => m + 1) 4097 2049 (by omega)]
  rfl

theorem getBBN_c3B_4097 : getBlockByNumber c3dbB 4097 = none := by
  unfold getBlockByNumber getCanonicalHash
  rw [show c3dbB.canonical = descPairs (fun m => m + 1) 4097 from rfl]
  rw [alookup_descPairs_ge (fun m => m + 1) 4097 4097 (le_refl _)]
  rfl

theorem scanLoop_step_found (env : Env) (st : ChainState) (steps i : Nat)
    (acc : Option Block) (bb : Block)
    (h1 : i < 5000000) (h2 : getBlockByNumber st.db i = some bb)
    (h3 : blockUnhealthy env st bb = false) :
    scanLoop env st (steps + 1) i acc = scanLoop env st steps (i + 2048) (some bb) := by
  rw [scanLoop, if_pos h1, h2]
  simp only [h3, Bool.false_eq_true, if_false]

theorem scanLoop_step_missing (env : Env) (st : ChainState) (steps i : Nat)
    (acc : Option Block)
    (h1 : i < 5000000) (h2 : getBlockByNumber st.db i = none) :
    scanLoop env st (steps + 1) i acc = acc := by
  rw [scanLoop, if_pos h1, h2]

theorem scanForward_c3B : scanForward exEnv c3StB = some (c3Block 2049) := by
  unfold scanForward
  show scanLoop exEnv c3StB (2441 + 1) 1 none = _
  rw [scanLoop_step_found exEnv c3StB 2441 1 none (c3Block 1) (by norm_num)
    getBBN_c3B_1 (by decide)]
  show scanLoop exEnv c3StB (2440 + 1) 2049 (some (c3Block 1)) = _
  rw [scanLoop_step_found exEnv c3StB 2440 2049 (some (c3Block 1)) (c3Block 2049)
    (by norm_num) getBBN_c3B_2049 (by decide)]
  show scanLoop exEnv c3StB (2439 + 1) 4097 (some (c3Block 2049)) = _
  rw [scanLoop_step_missing exEnv c3StB 2439 4097 (some (c3Block 2049))
    (by norm_num) getBBN_c3B_4097]

theorem hcDoomed_c3B (h : Nat) :
    (hcDoomed c3StB.db 2049).contains h = decide (2049 + 1 < h ∧ h ≤ 4097) := by
  unfold hcDoomed
  rw [show c3StB.db.canonical = descPairs (fun m => m + 1) 4097 from rfl]
  exact doomed_contains 2049 h 4097

/-- The store after `hcTrim` at target height 2049 in the recovery scenario:
all four stored headers and bodies survive (none is canonical above 2050)
and the canonical index keeps heights `0 … 2049`. -/
def c3TrimB : DB :=
  { headers := [(1, c3Header 0), (2, c3Header 1), (2049, c3Header 2048),
      (2050, c3Header 2049)]
    bodies := [(1, (⟨[]⟩ : Body)), (2, (⟨[]⟩ : Body)), (2049, (⟨[]⟩ : Body)),
      (2050, (⟨[]⟩ : Body))]
    blockReceipts := []
    receiptLookup := []
    txLookup := []
    tds := []
    canonical := descPairs (fun m => m + 1) 2050
    mipmap := []
    headBlock := some 1
    headHeader := some 1
    headFast := some 1
    stateRoots := [600] }

theorem hcTrim_c3B : hcTrim c3StB.db 2049 = c3TrimB := by
  unfold hcTrim
  rw [show c3StB.db.canonical = descPairs (fun m => m + 1) 4097 from rfl]
  rw [filter_le_descPairs]
  rw [show c3StB.db.headers = [(1, c3Header 0), (2, c3Header 1), (2049, c3Header 2048),
      (2050, c3Header 2049)] from rfl]
  rw [show c3StB.db.bodies = [(1, (⟨[]⟩ : Body)), (2, (⟨[]⟩ : Body)),
      (2049, (⟨[]⟩ : Body)), (2050, (⟨[]⟩ : Body))] from rfl]
  rw [show c3StB.db.tds = ([] : List (Hash × Int)) from rfl]
  simp only [List.filter_cons, List.filter_nil, hcDoomed_c3B]
  norm_num [c3TrimB]
  exact ⟨rfl, rfl, rfl, rfl, rfl, rfl, rfl, rfl⟩

/-- The state after `setHeadCore` at 2049: head header moved to the height-2049
block, head block and fast head still at genesis. -/
def c3AfterSH : ChainState :=
  { db := { c3TrimB with headHeader := some 2050 }
    currentBlock := some (c3Block 0)
    currentFastBlock := some (c3Block 0)
    currentHeader := c3Header 2049
    genesisBlock := c3Block 0
    futureBlocks := []
    procInterrupt := false }

theorem setHeadCore_c3B : setHeadCore c3StB 2049 = c3AfterSH := by
  unfold setHeadCore hcSetHead
  rw [hcTrim_c3B]
  rfl

theorem loadLast_c3AfterSH (fuel : Nat) :
    loadLastState exEnv (fuel + 1) c3AfterSH = some c3AfterSH := by
  rw [loadLastState]
  rfl

theorem loadLastState_scans (env : Env) (fuel : Nat) (st st' : ChainState)
    (hB : Hash) (cb fb lastOk : Block) (hdr : Header)
    (h1 : st.db.headBlock = some hB)
    (h2 : getBlock st.db hB = some cb)
    (h3 : blockUnhealthy env st cb = false)
    (h4 : blockIsGenesis st cb = true)
    (h5 : st.db.stateRoots.contains cb.root = true)
    (h6 : loadHeadHeader st.db cb = hdr)
    (h7 : loadFastBlock st.db cb = fb)
    (h8 : st' = { st with
      currentBlock := some cb
      currentHeader := hdr
      currentFastBlock := some fb })
    (h9 : blockIsGenesis st' cb = true)
    (h10 : blockIsGenesis st' fb = true)
    (h11 : hdr = st'.genesisBlock.header)
    (h12 : scanForward env st' = some lastOk) :
    loadLastState env (fuel + 1) st = loadLastState env fuel (setHeadCore st' lastOk.number) := by
  subst h8
  have h11a : hdr = st.genesisBlock.header := h11
  subst h11a
  rw [loadLastState, h1]
  simp only [h2, h3, h4, h5, h6, h7, h9, h10, h12]
  simp

/-- The chain state `NewBlockChain` builds just before `loadLastState` in the
heads-present variant of the recovery scenario. -/
def c3St0B : ChainState :=
  { db := c3dbB
    currentBlock := none
    currentFastBlock := none
    currentHeader := c3Header 0
    genesisBlock := c3Block 0
    futureBlocks := []
    procInterrupt := false }

theorem loadLast_c3B (fuel : Nat) :
    loadLastState exEnv (fuel + 1 + 1) c3St0B = some c3AfterSH := by
  rw [loadLastState_scans exEnv (fuel + 1) c3St0B c3StB 1 (c3Block 0) (c3Block 0)
    (c3Block 2049) (c3Header 0) rfl rfl (by decide) (by decide) rfl rfl rfl rfl
    (by decide) (by decide) rfl scanForward_c3B]
  show loadLastState exEnv (fuel + 1) (setHeadCore c3StB 2049) = _
  rw [setHeadCore_c3B]
  exact loadLast_c3AfterSH fuel

/-- C3 (amended): when the three head pointers are present and all resolve to
the genesis block while canonical hashes are stored beyond height 0, startup
scans forward at heights `1, 1+2048, 1+2·2048, …` (below 5,000,000), stops at
the first unpopulated probe, and rewinds via `SetHead` to the last healthy
probed block — not to the highest healthy block: with canonical entries to
height 4096 the scan reaches 2049 and stops at the empty probe 4097, the
canonical index is truncated above 2049, and the head header moves to the
height-2049 block while the head block and fast head remain at genesis.
(When head pointers are absent the scan never runs; the chain is reset to
genesis instead — the counterexample.) -/
theorem C3_forward_scan_amended :
    c3dbB.headBlock = some (c3Block 0).hash ∧
    c3dbB.headHeader = some (c3Block 0).hash ∧
    c3dbB.headFast = some (c3Block 0).hash ∧
    (∀ m : Nat, m ≤ 4096 → (alookup c3dbB.canonical m).isSome) ∧
    blockUnhealthy exEnv c3StB (c3Block 2049) = false ∧
    scanForward exEnv c3StB = some (c3Block 2049) ∧
    ∃ st, (NewBlockChain exEnv 4 c3dbB false).1 = .ok st ∧
      st.currentHeader = c3Header 2049 ∧
      st.db.headHeader = some (c3Block 2049).hash ∧
      st.currentBlock = some (c3Block 0) ∧
      st.currentFastBlock = some (c3Block 0) ∧
      (∀ m : Nat, 2049 < m → alookup st.db.canonical m = none) ∧
      alookup st.db.canonical 2049 = some (c3Block 2049).hash := by
  refine ⟨rfl, rfl, rfl, ?_, by decide, scanForward_c3B, ?_⟩
  · intro m hm
    show (alookup (descPairs (fun k => k + 1) 4097) m).isSome
    rw [alookup_descPairs (fun k => k + 1) 4097 m (by omega)]
    rfl
  · refine ⟨c3AfterSH, ?_, rfl, rfl, rfl, rfl, ?_, ?_⟩
    · have hst : loadLastState exEnv 4
          { db := c3dbB
            currentBlock := none
            currentFastBlock := none
            currentHeader := (c3Block 0).header
            genesisBlock := c3Block 0
            futureBlocks := []
            procInterrupt := false } = some c3AfterSH := loadLast_c3B 2
      unfold NewBlockChain
      rw [getBBN_c3B_0]
      simp only [hst]
    · intro m hm
      show alookup (descPairs (fun k => k + 1) 2050) m = none
      exact alookup_descPairs_ge (fun k => k + 1) 2050 m (by omega)
    · show alookup (descPairs (fun k => k + 1) 2050) 2049 = some 2050
      rw [alookup_descPairs (fun k => k + 1) 2050 2049 (by omega)]

/-! ## C7: the truncation invariant of `SetHead` -/

/-- No canonical mapping above height `n`. -/
def CanonBound (n : Nat) (db : DB) : Prop :=
  ∀ m, n < m → alookup db.canonical m = none

/-- The head-block pointer, when it resolves to a stored header, points at
height `≤ n`. -/
def HeadNumLe (n : Nat) (db : DB) : Prop :=
  ∀ h, db.headBlock = some h → ∀ hdr, alookup db.headers h = some hdr → hdr.number ≤ n

/-- The hash has neither a header, nor a TD entry, nor a body in the store. -/
def Gone (h : Hash) (db : DB) : Prop :=
  alookup db.headers h = none ∧ alookup db.tds h = none ∧ alookup db.bodies h = none

/-- Store sanity assumed of a chain that `SetHead` operates on: the genesis
sits at height 0 and is stored intact under its hash, headers are keyed by
their own hash, whatever the canonical index at height `m` points to is a
header of number `m`, anything stored under the genesis hash is the genesis
header, and the in-memory current block agrees in height with its stored
header. -/
structure WF (st : ChainState) : Prop where
  gen_num : st.genesisBlock.number = 0
  headers_hash : ∀ p ∈ st.db.headers, p.2.hash = p.1
  canon_num : ∀ p ∈ st.db.canonical, ∀ q ∈ st.db.headers, q.1 = p.2 → q.2.number = p.1
  gen_hdr : ∀ q ∈ st.db.headers, q.1 = st.genesisBlock.hash → q.2 = st.genesisBlock.header
  gen_stored : alookup st.db.headers st.genesisBlock.hash = some st.genesisBlock.header
  cur_num : ∀ b, st.currentBlock = some b → ∀ hdr, alookup st.db.headers b.hash = some hdr →
    hdr.number = b.number

theorem getBlock_inv {db : DB} {h : Hash} {b : Block} (hg : getBlock db h = some b) :
    alookup db.headers h = some b.header ∧ alookup db.bodies h = some b.body := by
  unfold getBlock getHeader getBody at hg
  cases hh : alookup db.headers h <;> rw [hh] at hg <;> simp only [bind, Option.bind] at hg
  · cases hg
  · cases hb : alookup db.bodies h <;> rw [hb] at hg <;>
      simp only [bind, Option.bind, pure, Option.some.injEq] at hg
    · cases hg
    · cases hg
      exact ⟨rfl, rfl⟩

theorem contains_of_mem {l : List Hash} {h : Hash} (hm : h ∈ l) : l.contains h = true := by
  simpa using hm

theorem mem_of_contains {l : List Hash} {h : Hash} (hc : l.contains h = true) : h ∈ l := by
  simpa using hc

/-- Lookup in the trimmed header table. -/
theorem hcTrim_headers (db : DB) (n : Nat) (h : Hash) :
    alookup (hcTrim db n).headers h =
      if (hcDoomed db n).contains h = true then none else alookup db.headers h := by
  simp only [hcTrim]
  rw [alookup_filter_key (fun k => decide ¬ ((hcDoomed db n).contains k = true)) db.headers h]
  by_cases hc : (hcDoomed db n).contains h = true <;> simp [hc]

theorem hcTrim_tds (db : DB) (n : Nat) (h : Hash) :
    alookup (hcTrim db n).tds h =
      if (hcDoomed db n).contains h = true then none else alookup db.tds h := by
  simp only [hcTrim]
  rw [alookup_filter_key (fun k => decide ¬ ((hcDoomed db n).contains k = true)) db.tds h]
  by_cases hc : (hcDoomed db n).contains h = true <;> simp [hc]

theorem hcTrim_bodies (db : DB) (n : Nat) (h : Hash) :
    alookup (hcTrim db n).bodies h =
      if (hcDoomed db n).contains h = true then none else alookup db.bodies h := by
  simp only [hcTrim]
  rw [alookup_filter_key (fun k => decide ¬ ((hcDoomed db n).contains k = true)) db.bodies h]
  by_cases hc : (hcDoomed db n).contains h = true <;> simp [hc]

theorem hcTrim_canonical (db : DB) (n : Nat) (m : Nat) :
    alookup (hcTrim db n).canonical m =
      if m ≤ n then alookup db.canonical m else none := by
  simp only [hcTrim]
  rw [alookup_filter_key (fun k => decide (k ≤ n)) db.canonical m]
  by_cases hm : m ≤ n <;> simp [hm]

/-- A hash canonical above the cut is doomed. -/
theorem doomed_of_canonical {db : DB} {n m : Nat} {h : Hash} (hm : n < m)
    (hc : alookup db.canonical m = some h) : (hcDoomed db n).contains h = true := by
  apply contains_of_mem
  unfold hcDoomed
  refine List.mem_map.2 ⟨(m, h), ?_, rfl⟩
  exact List.mem_filter.2 ⟨alookup_mem hc, by simpa using hm⟩

/-- Under `WF`, the genesis hash is never doomed. -/
theorem genesis_not_doomed {st : ChainState} (hwf : WF st) (n : Nat) :
    ¬ (hcDoomed st.db n).contains st.genesisBlock.hash = true := by
  intro hc
  obtain ⟨p, hpf, hph⟩ := List.mem_map.1 (mem_of_contains hc)
  obtain ⟨hpc, hpn⟩ := List.mem_filter.1 hpf
  have hq := alookup_mem hwf.gen_stored
  have hnum : st.genesisBlock.header.number = p.1 :=
    hwf.canon_num p hpc (st.genesisBlock.hash, st.genesisBlock.header) hq (by rw [hph])
  have hg0 : st.genesisBlock.header.number = 0 := hwf.gen_num
  have hpn' : n < p.1 := by simpa using hpn
  omega

/-- The intermediate state of `SetHead` after the header-chain truncation and
cache purge, before the head rewind. -/
def shAfterTrim (st : ChainState) (n : Nat) : ChainState :=
  { hcSetHead st n with futureBlocks := [] }

theorem setHeadCore_genesis (st : ChainState) (n : Nat) :
    (setHeadCore st n).genesisBlock = st.genesisBlock := rfl

theorem setHeadCore_headers (st : ChainState) (n : Nat) :
    (setHeadCore st n).db.headers = (hcTrim st.db n).headers := rfl

theorem setHeadCore_bodies (st : ChainState) (n : Nat) :
    (setHeadCore st n).db.bodies = (hcTrim st.db n).bodies := rfl

theorem setHeadCore_tds (st : ChainState) (n : Nat) :
    (setHeadCore st n).db.tds = (hcTrim st.db n).tds := rfl

theorem setHeadCore_canonical (st : ChainState) (n : Nat) :
    (setHeadCore st n).db.canonical = (hcTrim st.db n).canonical := rfl

theorem setHeadCore_currentHeader (st : ChainState) (n : Nat) :
    (setHeadCore st n).currentHeader =
      ((alookup (hcTrim st.db n).canonical n).bind
        (alookup (hcTrim st.db n).headers)).getD st.genesisBlock.header := rfl

theorem shAfterTrim_currentBlock (st : ChainState) (n : Nat) :
    (shAfterTrim st n).currentBlock = st.currentBlock := rfl

theorem getBlock_shAfterTrim (st : ChainState) (n : Nat) (h : Hash) :
    getBlock (shAfterTrim st n).db h = getBlock (hcTrim st.db n) h := rfl

theorem setHeadCore_eq (st : ChainState) (n : Nat) :
    setHeadCore st n =
      { shAfterTrim st n with
        currentBlock := some ((checkRoot (shAfterTrim st n).db
          (rewindBlock (shAfterTrim st n) (shAfterTrim st n).currentHeader)).getD
            st.genesisBlock)
        currentFastBlock := some ((rewindFast (shAfterTrim st n)
          (shAfterTrim st n).currentHeader).getD st.genesisBlock)
        db := writeHeadFastBlockHash (writeHeadBlockHash (shAfterTrim st n).db
          ((checkRoot (shAfterTrim st n).db
            (rewindBlock (shAfterTrim st n) (shAfterTrim st n).currentHeader)).getD
              st.genesisBlock).hash)
          ((rewindFast (shAfterTrim st n) (shAfterTrim st n).currentHeader).getD
            st.genesisBlock).hash } := rfl

theorem setHeadCore_currentBlock (st : ChainState) (n : Nat) :
    ∃ cb₀, (setHeadCore st n).currentBlock = some cb₀ ∧
      (setHeadCore st n).db.headBlock = some cb₀.hash := by
  refine ⟨_, rfl, rfl⟩

theorem checkRoot_some {db : DB} {o : Option Block} {b : Block}
    (h : checkRoot db o = some b) : o = some b := by
  cases o with
  | none => simp [checkRoot] at h
  | some x =>
    unfold checkRoot at h
    simp only at h
    split at h
    · exact h
    · cases h

theorem rewindBlock_cases {st : ChainState} {ch : Header} {b : Block}
    (h : rewindBlock st ch = some b) :
    (st.currentBlock = some b ∧ ¬ ch.number < b.number) ∨
    ((∃ b₀, st.currentBlock = some b₀ ∧ ch.number < b₀.number) ∧
      getBlock st.db ch.hash = some b) := by
  unfold rewindBlock at h
  cases hc : st.currentBlock with
  | none => rw [hc] at h; simp at h
  | some b₀ =>
    rw [hc] at h
    simp only at h
    split at h
    · next hlt => exact Or.inr ⟨⟨b₀, rfl, hlt⟩, h⟩
    · next hnlt =>
      cases h
      exact Or.inl ⟨rfl, hnlt⟩

theorem setHeadCore_cb_cases (st : ChainState) (n : Nat) (cb₀ : Block)
    (hcb : (setHeadCore st n).currentBlock = some cb₀) :
    cb₀ = st.genesisBlock ∨
    (∃ b, st.currentBlock = some b ∧
      ¬ (setHeadCore st n).currentHeader.number < b.number ∧ cb₀ = b) ∨
    getBlock (hcTrim st.db n) (setHeadCore st n).currentHeader.hash = some cb₀ := by
  rw [setHeadCore_eq] at hcb
  have hGet : (checkRoot (shAfterTrim st n).db
      (rewindBlock (shAfterTrim st n) (shAfterTrim st n).currentHeader)).getD
        st.genesisBlock = cb₀ := by
    simpa using hcb
  cases hcr : checkRoot (shAfterTrim st n).db
      (rewindBlock (shAfterTrim st n) (shAfterTrim st n).currentHeader) with
  | none =>
    rw [hcr] at hGet
    exact Or.inl (by simpa using hGet.symm)
  | some b' =>
    rw [hcr] at hGet
    have hb' : b' = cb₀ := by simpa using hGet
    subst hb'
    have hrw := checkRoot_some hcr
    rcases rewindBlock_cases hrw with ⟨hcur, hnlt⟩ | ⟨⟨b₀, hcur, hlt⟩, hget⟩
    · refine Or.inr (Or.inl ⟨b', ?_, ?_, rfl⟩)
      · rw [shAfterTrim_currentBlock] at hcur
        exact hcur
      · exact hnlt
    · refine Or.inr (Or.inr ?_)
      rw [getBlock_shAfterTrim] at hget
      exact hget

theorem hcTrim_headers_mem {db : DB} {n : Nat} {p : Hash × Header}
    (hp : p ∈ (hcTrim db n).headers) : p ∈ db.headers :=
  (List.mem_filter.1 (show p ∈ db.headers.filter
    (fun q => decide ¬ ((hcDoomed db n).contains q.1 = true)) from hp)).1

theorem hcTrim_canonical_mem {db : DB} {n : Nat} {p : Nat × Hash}
    (hp : p ∈ (hcTrim db n).canonical) : p ∈ db.canonical ∧ p.1 ≤ n := by
  have h' := List.mem_filter.1
    (show p ∈ db.canonical.filter (fun q => decide (q.1 ≤ n)) from hp)
  exact ⟨h'.1, by simpa using h'.2⟩

theorem gen_trim_le {st : ChainState} (hwf : WF st) (n : Nat) :
    st.genesisBlock.header.number ≤ n ∧
    ∀ hdr, alookup (hcTrim st.db n).headers st.genesisBlock.header.hash = some hdr →
      hdr.number ≤ n := by
  have hg0 : st.genesisBlock.header.number = 0 := hwf.gen_num
  constructor
  · omega
  · intro hdr hh
    have hmem := hcTrim_headers_mem (alookup_mem hh)
    have hgh : hdr = st.genesisBlock.header :=
      hwf.gen_hdr (st.genesisBlock.header.hash, hdr) hmem rfl
    rw [hgh]
    omega

/-- The truncated current header sits at height `≤ n`, and so does any header
stored under its hash. -/
theorem setHeadCore_ch_le {st : ChainState} (n : Nat) (hwf : WF st) :
    (setHeadCore st n).currentHeader.number ≤ n ∧
    ∀ hdr, alookup (hcTrim st.db n).headers (setHeadCore st n).currentHeader.hash = some hdr →
      hdr.number ≤ n := by
  rw [setHeadCore_currentHeader]
  cases hcn : alookup (hcTrim st.db n).canonical n with
  | none =>
    simp only [Option.none_bind, Option.getD_none]
    exact gen_trim_le hwf n
  | some h₀ =>
    cases hh₀ : alookup (hcTrim st.db n).headers h₀ with
    | none =>
      simp only [Option.some_bind, hh₀, Option.getD_none]
      exact gen_trim_le hwf n
    | some hdr₀ =>
      simp only [Option.some_bind, hh₀, Option.getD_some]
      have hmemc := hcTrim_canonical_mem (alookup_mem hcn)
      have hmemh := hcTrim_headers_mem (alookup_mem hh₀)
      have hnum : hdr₀.number = n := hwf.canon_num (n, h₀) hmemc.1 (h₀, hdr₀) hmemh rfl
      constructor
      · omega
      · intro hdr hh
        have hhash : hdr₀.hash = h₀ := hwf.headers_hash (h₀, hdr₀) hmemh
        rw [hhash, hh₀] at hh
        cases hh
        omega

/-- `setHeadCore` establishes every invariant `loadLastState` relies on:
well-formedness is kept, the canonical index is cut at `n`, the head-block
pointer resolves below `n`, deleted data stays deleted, and every hash
canonical above `n` loses its header, TD and body (and is not the genesis). -/
theorem setHeadCore_spec (st : ChainState) (n : Nat) (hwf : WF st) :
    WF (setHeadCore st n) ∧
    CanonBound n (setHeadCore st n).db ∧
    HeadNumLe n (setHeadCore st n).db ∧
    (setHeadCore st n).genesisBlock = st.genesisBlock ∧
    (∀ h, Gone h st.db → Gone h (setHeadCore st n).db) ∧
    (∀ m h, n < m → alookup st.db.canonical m = some h →
      Gone h (setHeadCore st n).db ∧ h ≠ st.genesisBlock.hash) := by
  have Lh : ∀ h, alookup (setHeadCore st n).db.headers h =
      if (hcDoomed st.db n).contains h = true then none else alookup st.db.headers h := by
    intro h
    rw [setHeadCore_headers]
    exact hcTrim_headers st.db n h
  have Lt : ∀ h, alookup (setHeadCore st n).db.tds h =
      if (hcDoomed st.db n).contains h = true then none else alookup st.db.tds h := by
    intro h
    rw [setHeadCore_tds]
    exact hcTrim_tds st.db n h
  have Lb : ∀ h, alookup (setHeadCore st n).db.bodies h =
      if (hcDoomed st.db n).contains h = true then none else alookup st.db.bodies h := by
    intro h
    rw [setHeadCore_bodies]
    exact hcTrim_bodies st.db n h
  have Lc : ∀ m, alookup (setHeadCore st n).db.canonical m =
      if m ≤ n then alookup st.db.canonical m else none := by
    intro m
    rw [setHeadCore_canonical]
    exact hcTrim_canonical st.db n m
  have Linv : ∀ h hdr, alookup (setHeadCore st n).db.headers h = some hdr →
      alookup st.db.headers h = some hdr := by
    intro h hdr hh
    rw [Lh] at hh
    split at hh
    · cases hh
    · exact hh
  obtain ⟨cb₀, hcb, hhb⟩ := setHeadCore_currentBlock st n
  have hchle := setHeadCore_ch_le n hwf
  have hcur : ∀ hdr, alookup (setHeadCore st n).db.headers cb₀.hash = some hdr →
      hdr.number = cb₀.number ∧ cb₀.number ≤ n := by
    intro hdr hh
    rcases setHeadCore_cb_cases st n cb₀ hcb with hgen | ⟨b, hb, hnlt, heq⟩ | hget
    · subst hgen
      have horig := Linv _ _ hh
      have hgh : hdr = st.genesisBlock.header :=
        hwf.gen_hdr (st.genesisBlock.hash, hdr) (alookup_mem horig) rfl
      refine ⟨by rw [hgh]; rfl, ?_⟩
      have hg0 : st.genesisBlock.number = 0 := hwf.gen_num
      omega
    · subst heq
      have horig := Linv _ _ hh
      have h1 : hdr.number = cb₀.number := hwf.cur_num cb₀ hb hdr horig
      have h2 := hchle.1
      exact ⟨h1, by omega⟩
    · have hinv := getBlock_inv hget
      have hmem := hcTrim_headers_mem (alookup_mem hinv.1)
      have hkey : cb₀.hash = (setHeadCore st n).currentHeader.hash :=
        hwf.headers_hash ((setHeadCore st n).currentHeader.hash, cb₀.header) hmem
      rw [setHeadCore_headers, hkey, hinv.1] at hh
      cases hh
      exact ⟨rfl, hchle.2 cb₀.header hinv.1⟩
  refine ⟨?_, ?_, ?_, setHeadCore_genesis st n, ?_, ?_⟩
  · refine ⟨?_, ?_, ?_, ?_, ?_, ?_⟩
    · rw [setHeadCore_genesis]
      exact hwf.gen_num
    · intro p hp
      exact hwf.headers_hash p (hcTrim_headers_mem ((setHeadCore_headers st n) ▸ hp))
    · intro p hp q hq hqp
      exact hwf.canon_num p (hcTrim_canonical_mem ((setHeadCore_canonical st n) ▸ hp)).1
        q (hcTrim_headers_mem ((setHeadCore_headers st n) ▸ hq)) hqp
    · intro q hq hq1
      rw [setHeadCore_genesis] at hq1
      rw [setHeadCore_genesis]
      exact hwf.gen_hdr q (hcTrim_headers_mem ((setHeadCore_headers st n) ▸ hq)) hq1
    · rw [setHeadCore_genesis, Lh, if_neg (genesis_not_doomed hwf n)]
      exact hwf.gen_stored
    · intro b hb hdr hh
      rw [hcb] at hb
      cases hb
      exact (hcur hdr hh).1
  · intro m hm
    rw [Lc, if_neg (by omega)]
  · intro h hh hdr hhd
    rw [hhb] at hh
    cases hh
    have := hcur hdr hhd
    omega
  · intro h hg
    refine ⟨?_, ?_, ?_⟩
    · rw [Lh]
      split
      · rfl
      · exact hg.1
    · rw [Lt]
      split
      · rfl
      · exact hg.2.1
    · rw [Lb]
      split
      · rfl
      · exact hg.2.2
  · intro m h hm hcan
    have hd := doomed_of_canonical hm hcan
    refine ⟨⟨?_, ?_, ?_⟩, ?_⟩
    · rw [Lh, if_pos hd]
    · rw [Lt, if_pos hd]
    · rw [Lb, if_pos hd]
    · intro he
      exact genesis_not_doomed hwf n (he ▸ hd)

theorem finishReset_fields (g : Block) (s : ChainState) :
    (finishReset g s).db.headers = (g.hash, g.header) :: s.db.headers ∧
    (finishReset g s).db.bodies = (g.hash, g.body) :: s.db.bodies ∧
    (finishReset g s).db.tds = (g.hash, (g.difficulty : Int)) :: s.db.tds ∧
    (finishReset g s).db.canonical = (g.number, g.hash) :: s.db.canonical ∧
    (finishReset g s).currentBlock = some g ∧
    (finishReset g s).genesisBlock = g := by
  simp only [finishReset, insert]
  split <;>
    simp [writeHeadHeaderHash, writeHeadFastBlockHash, writeHeadBlockHash, writeCanonicalHash,
      dbWriteBlock, writeTd, writeBody, writeHeader, Block.hash]

theorem finishReset_good (g : Block) (s : ChainState) (n : Nat)
    (hg : g.number = 0) (hcb : CanonBound 0 s.db) :
    CanonBound n (finishReset g s).db ∧
    (finishReset g s).currentBlock = some g ∧
    (finishReset g s).genesisBlock = g ∧
    (∀ h, h ≠ g.hash → Gone h s.db → Gone h (finishReset g s).db) := by
  obtain ⟨fh, fb, ft, fc, fcb, fg⟩ := finishReset_fields g s
  refine ⟨?_, fcb, fg, ?_⟩
  · intro m hm
    rw [fc, alookup_cons, if_neg (by omega)]
    exact hcb m (by omega)
  · intro h hne hg'
    refine ⟨?_, ?_, ?_⟩
    · rw [fh, alookup_cons, if_neg (fun he => hne he.symm)]
      exact hg'.1
    · rw [ft, alookup_cons, if_neg (fun he => hne he.symm)]
      exact hg'.2.1
    · rw [fb, alookup_cons, if_neg (fun he => hne he.symm)]
      exact hg'.2.2

/-- On a store whose canonical index is cut at `n` and whose canonical
entries resolve to headers of matching height, the forward scan can only
report a block of height `≤ n`. -/
theorem scanLoop_num_le (env : Env) (st : ChainState) (n : Nat)
    (hcb : CanonBound n st.db)
    (hcn : ∀ p ∈ st.db.canonical, ∀ q ∈ st.db.headers, q.1 = p.2 → q.2.number = p.1) :
    ∀ steps i acc, (∀ b, acc = some b → b.number ≤ n) →
      ∀ lastOk, scanLoop env st steps i acc = some lastOk → lastOk.number ≤ n := by
  intro steps
  induction steps with
  | zero =>
    intro i acc hacc lastOk hs
    rw [scanLoop] at hs
    exact hacc lastOk hs
  | succ k ih =>
    intro i acc hacc lastOk hs
    rw [scanLoop] at hs
    split at hs
    · cases hgb : getBlockByNumber st.db i with
      | none =>
        rw [hgb] at hs
        simp only at hs
        exact hacc lastOk hs
      | some bb =>
        rw [hgb] at hs
        simp only at hs
        refine ih (i + 2048) _ ?_ lastOk hs
        intro b hb
        split at hb
        · exact hacc b hb
        · cases hb
          unfold getBlockByNumber getCanonicalHash at hgb
          cases hch : alookup st.db.canonical i with
          | none =>
            rw [hch] at hgb
            simp at hgb
          | some hsh =>
            rw [hch] at hgb
            simp only [Option.some_bind] at hgb
            have hle : i ≤ n := by
              by_contra hgt
              have := hcb i (by omega)
              rw [this] at hch
              cases hch
            have hinv := getBlock_inv hgb
            have hnum : bb.header.number = i :=
              hcn (i, hsh) (alookup_mem hch) (hsh, bb.header) (alookup_mem hinv.1) rfl
            have hbb : bb.number = bb.header.number := rfl
            omega
    · exact hacc lastOk hs

/-- Re-pointing the in-memory heads at a block freshly read from the store
keeps the state well-formed. -/
theorem WF_withCur {st : ChainState} (hwf : WF st) {hB : Hash} {cb : Block}
    (hget : getBlock st.db hB = some cb) (hdr : Header) (fb : Option Block) :
    WF { st with currentBlock := some cb, currentHeader := hdr, currentFastBlock := fb } := by
  refine ⟨hwf.gen_num, hwf.headers_hash, hwf.canon_num, hwf.gen_hdr, hwf.gen_stored, ?_⟩
  intro b hb hdr' hh
  cases hb
  have hinv := getBlock_inv hget
  have hkey : cb.hash = hB := hwf.headers_hash (hB, cb.header) (alookup_mem hinv.1)
  rw [hkey, hinv.1] at hh
  cases hh
  rfl

/-- What a successful `loadLastState` run guarantees relative to the state it
started from: same genesis, canonical index still cut at `n`, a current head
block at height `≤ n`, and no resurrected store data (the genesis apart). -/
@[reducible] def GoodRet (n : Nat) (st st' : ChainState) : Prop :=
  st'.genesisBlock = st.genesisBlock ∧
  CanonBound n st'.db ∧
  (∃ cb, st'.currentBlock = some cb ∧ cb.number ≤ n) ∧
  (∀ h, Gone h st.db → h ≠ st.genesisBlock.hash → Gone h st'.db)

set_option maxRecDepth 4000 in
/-- The recovery loop of `loadLastState` preserves the `SetHead` truncation:
on a well-formed state whose canonical index is cut at `n` and whose
head-block pointer resolves below `n`, every successful run ends with the
canonical index still cut at `n`, a head block of height `≤ n`, and no data
other than the genesis written back. -/
theorem loadLastState_good (env : Env) :
    ∀ fuel (st st' : ChainState) (n : Nat), WF st → CanonBound n st.db → HeadNumLe n st.db →
      loadLastState env fuel st = some st' → GoodRet n st st' := by
  intro fuel
  induction fuel with
  | zero =>
    intro st st' n _ _ _ hok
    rw [loadLastState] at hok
    cases hok
  | succ fuel ih =>
    intro st st' n hwf hcb hhn hok
    have hreset : (loadLastState env fuel (setHeadCore st 0)).map (finishReset st.genesisBlock)
        = some st' → GoodRet n st st' := by
      intro hok'
      cases hrec : loadLastState env fuel (setHeadCore st 0) with
      | none =>
        rw [hrec] at hok'
        cases hok'
      | some st₁' =>
        rw [hrec] at hok'
        simp only [Option.map_some'] at hok'
        cases hok'
        obtain ⟨hwf0, hcb0, hhn0, hgen0, hpres0, -⟩ := setHeadCore_spec st 0 hwf
        obtain ⟨hg1, hcb1, hcur1, hgone1⟩ := ih (setHeadCore st 0) st₁' 0 hwf0 hcb0 hhn0 hrec
        have hg0 : st.genesisBlock.number = 0 := hwf.gen_num
        obtain ⟨hfc, hfcb, hfg, hfgone⟩ := finishReset_good st.genesisBlock st₁' n hg0 hcb1
        refine ⟨hfg, hfc, ⟨st.genesisBlock, hfcb, by omega⟩, ?_⟩
        intro h hgone hne
        exact hfgone h hne (hgone1 h (hpres0 h hgone) (by rw [hgen0]; exact hne))
    rw [loadLastState] at hok
    cases hhb : st.db.headBlock with
    | none =>
      rw [hhb] at hok
      simp only at hok
      exact hreset hok
    | some headH =>
      rw [hhb] at hok
      simp only at hok
      cases hgb : getBlock st.db headH with
      | none =>
        rw [hgb] at hok
        simp only at hok
        exact hreset hok
      | some cb =>
        rw [hgb] at hok
        simp only at hok
        split at hok
        · exact hreset hok
        · split at hok
          · exact hreset hok
          · split at hok
            · exact hreset hok
            · split at hok
              · split at hok
                · rename_i lastOk hscan
                  have hwfU : WF { st with
                      currentBlock := some cb
                      currentHeader := loadHeadHeader st.db cb
                      currentFastBlock := some (loadFastBlock st.db cb) } :=
                    WF_withCur hwf hgb (loadHeadHeader st.db cb)
                      (some (loadFastBlock st.db cb))
                  obtain ⟨hwfS, hcbS, hhnS, hgenS, hpresS, -⟩ :=
                    setHeadCore_spec { st with
                      currentBlock := some cb
                      currentHeader := loadHeadHeader st.db cb
                      currentFastBlock := some (loadFastBlock st.db cb) } lastOk.number hwfU
                  have hk : lastOk.number ≤ n := by
                    have hsf : scanForward env { st with
                        currentBlock := some cb
                        currentHeader := loadHeadHeader st.db cb
                        currentFastBlock := some (loadFastBlock st.db cb) } = some lastOk :=
                      hscan
                    unfold scanForward at hsf
                    exact scanLoop_num_le env { st with
                        currentBlock := some cb
                        currentHeader := loadHeadHeader st.db cb
                        currentFastBlock := some (loadFastBlock st.db cb) } n hcb hwf.canon_num
                      2442 1 none (fun b hb => nomatch hb) lastOk hsf
                  obtain ⟨hg1, hcb1, hcur1, hgone1⟩ :=
                    ih _ st' lastOk.number hwfS hcbS hhnS hok
                  refine ⟨?_, ?_, ?_, ?_⟩
                  · rw [hg1, hgenS]
                  · intro m hm
                    exact hcb1 m (by omega)
                  · obtain ⟨cb', h1, h2⟩ := hcur1
                    exact ⟨cb', h1, by omega⟩
                  · intro h hgone hne
                    refine hgone1 h (hpresS h hgone) ?_
                    rw [hgenS]
                    exact hne
                · cases hok
                  refine ⟨rfl, hcb, ⟨cb, rfl, ?_⟩, fun h hg _ => hg⟩
                  exact hhn headH hhb cb.header (getBlock_inv hgb).1
              · cases hok
                refine ⟨rfl, hcb, ⟨cb, rfl, ?_⟩, fun h hg _ => hg⟩
                exact hhn headH hhb cb.header (getBlock_inv hgb).1

/-- C7: for every height `n`, on a well-formed chain state, after `SetHead(n)`
returns: no block at a height greater than `n` is canonical; every hash that
was canonical above `n` has its header, TD and body deleted from the store;
and the current block sits at height `≤ n` (falling back as far as genesis
when the rewound head's block or state is missing — the recovery loop only
ever re-plants the genesis). -/
theorem C7_SetHead (env : Env) (fuel : Nat) (st st' : ChainState) (n : Nat)
    (hwf : WF st) (hok : SetHead env fuel st n = some st') :
    (∀ m, n < m → alookup st'.db.canonical m = none) ∧
    (∀ m h, n < m → alookup st.db.canonical m = some h →
      getHeader st'.db h = none ∧ getTd st'.db h = none ∧ getBody st'.db h = none) ∧
    (∃ cb, st'.currentBlock = some cb ∧ cb.number ≤ n) := by
  unfold SetHead at hok
  obtain ⟨hwfS, hcbS, hhnS, hgenS, hpresS, hdoomS⟩ := setHeadCore_spec st n hwf
  obtain ⟨hg, hc, hcur, hgone⟩ :=
    loadLastState_good env fuel (setHeadCore st n) st' n hwfS hcbS hhnS hok
  refine ⟨hc, ?_, hcur⟩
  intro m h hm hcan
  obtain ⟨hgone0, hne⟩ := hdoomS m h hm hcan
  have hfin := hgone h hgone0 (by rw [hgenS]; exact hne)
  exact ⟨hfin.1, hfin.2.1, hfin.2.2⟩

/-- A small well-formed store for exercising `SetHead`. -/
def c7DB : DB :=
  { headers := [(1, gHeader)]
    bodies := [(1, (⟨[]⟩ : Body))]
    blockReceipts := []
    receiptLookup := []
    txLookup := []
    tds := [(1, (10 : Int))]
    canonical := [(0, 1)]
    mipmap := []
    headBlock := some 1
    headHeader := some 1
    headFast := some 1
    stateRoots := [500] }

def c7St : ChainState :=
  { db := c7DB
    currentBlock := none
    currentFastBlock := none
    currentHeader := gHeader
    genesisBlock := gBlock
    futureBlocks := []
    procInterrupt := false }

/-- Witness for C7 at a concrete well-formed store, `SetHead(5)`. -/
theorem C7_SetHead_witness :
    ∃ st', SetHead exEnv 2 c7St 5 = some st' ∧
      ((∀ m, 5 < m → alookup st'.db.canonical m = none) ∧
       (∀ m h, 5 < m → alookup c7St.db.canonical m = some h →
         getHeader st'.db h = none ∧ getTd st'.db h = none ∧ getBody st'.db h = none) ∧
       (∃ cb, st'.currentBlock = some cb ∧ cb.number ≤ 5)) := by
  refine ⟨_, rfl, C7_SetHead exEnv 2 c7St _ 5 ⟨rfl, by decide, by decide, by decide, rfl, nofun⟩ rfl⟩

end GethCore
